import Mathlib

/-!
Day 3, part 1: crossed wires.

A shallow embedding of `src/Day3/part1.c` and the properties of it that the
specification states.

Conventions of the embedding.

* A C `int` is modelled by `Int`.  Signed overflow in the arithmetic of the
  program (`x++`, `isInt += wire`, `abs(x) + abs(y)`) is undefined behaviour in
  C, so the model describes the executions in which no coordinate, marker or
  distance leaves the range of `int`.
* The variable `len` is a 32-bit `int`: the value that `%d` stores in it is
  computed as the C library does, the digits being converted to a 64-bit
  `long` by `strtol`, which stops at the bounds of `long`, and the `long` being
  cut to the 32 bits of `int`.  A numeral up to 2147483647 is stored as it is.
* The `points` array together with its length `numStructs` is a `List point`;
  `realloc` followed by the write of the last element is an append at the end.
* The file is a `List Char`; `fscanf` consumes its first characters.
* The text printed on the way is not modelled, only the number printed on the
  `FINAL DISTANCE` line.
-/

namespace Day3

/-! ## Data model -/

/-- The record `struct point`: a grid cell and its marker `isInt`. -/
structure point where
  x : Int
  y : Int
  isInt : Int
deriving DecidableEq, Repr

/-- The local variables of `main` that the trace loop mutates: the array
`points` (whose length is `numStructs`), the wire index and the position. -/
structure State where
  points : List point
  wire : Int
  x : Int
  y : Int
deriving DecidableEq, Repr

/-- The state at line 23: one cell, the origin, with marker 1; wire 1 at the
origin. -/
def init : State :=
  { points := [{ x := 0, y := 0, isInt := 1 }], wire := 1, x := 0, y := 0 }

/-! ## The tracer (lines 34 to 66) -/

/-- The `switch(ins)` of lines 35 to 48: one unit step in the direction of
`ins`; any other character leaves the position alone (no `default`). -/
def move (ins : Char) (x y : Int) : Int × Int :=
  if ins = 'R' then (x + 1, y)
  else if ins = 'L' then (x - 1, y)
  else if ins = 'U' then (x, y + 1)
  else if ins = 'D' then (x, y - 1)
  else (x, y)

/-- The scan `for(j = 0; j < numStructs; j++)` of lines 51 to 56, started with
the flag `isDupe`: every cell at `(x, y)` gets `wire` added to its marker and
sets the flag.  Returns the array and the flag after the loop. -/
def scan (x y wire : Int) : List point → Int → List point × Int
  | [], isDupe => ([], isDupe)
  | p :: rest, isDupe =>
    if p.x = x ∧ p.y = y then
      ({ p with isInt := p.isInt + wire } :: (scan x y wire rest 1).1,
        (scan x y wire rest 1).2)
    else
      (p :: (scan x y wire rest isDupe).1, (scan x y wire rest isDupe).2)

/-- Lines 49 to 64: the scan with `isDupe = 0`, then the append of a new cell
with marker `wire` when the flag is still 0. -/
def upsert (points : List point) (x y wire : Int) : List point :=
  if (scan x y wire points 0).2 = 0 then
    (scan x y wire points 0).1 ++ [{ x := x, y := y, isInt := wire }]
  else (scan x y wire points 0).1

/-- One iteration of the loop `for(i = 0; i < len; i++)`: move, then upsert the
cell landed on. -/
def step (ins : Char) (s : State) : State :=
  { points := upsert s.points (move ins s.x s.y).1 (move ins s.x s.y).2 s.wire
    wire := s.wire
    x := (move ins s.x s.y).1
    y := (move ins s.x s.y).2 }

/-- The body of the step loop repeated `n` times. -/
def steps (ins : Char) : Nat → State → State
  | 0, s => s
  | n + 1, s => steps ins n (step ins s)

/-- The loop `for(i = 0; i < len; i++)` of lines 34 to 66: it runs `len` times,
and not at all when `len` is not positive. -/
def instruction (ins : Char) (len : Int) (s : State) : State :=
  steps ins len.toNat s

/-- Lines 26 to 29: the branch taken on a newline. -/
def reset (s : State) : State :=
  { points := s.points, wire := s.wire + 1, x := 0, y := 0 }

/-! ## The reader (lines 24, 25 and 31) -/

/-- The C-locale `isspace`, which `%d` uses to skip leading white space. -/
def isspace (c : Char) : Bool :=
  c.toNat = 32 || (9 ≤ c.toNat && c.toNat ≤ 13)

/-- The C-locale `isdigit`. -/
def isdigit (c : Char) : Bool :=
  48 ≤ c.toNat && c.toNat ≤ 57

/-- Leading white space is dropped by `%d`. -/
def skipSpace : List Char → List Char
  | [] => []
  | c :: cs => if isspace c then skipSpace cs else c :: cs

/-- The digits of the input item of `%d`: the longest run of decimal digits at
the head of the input, and the unread rest. -/
def scanDigits : List Char → List Char × List Char
  | [] => ([], [])
  | c :: cs =>
    if isdigit c then (c :: (scanDigits cs).1, (scanDigits cs).2) else ([], c :: cs)

/-- The number that a sequence of decimal digits denotes. -/
def decimal (ds : List Char) : Nat :=
  ds.foldl (fun acc c => 10 * acc + (c.toNat - 48)) 0

/-- The conversion of the input item of `%d` by `strtol`: the number that the
digits denote, with its sign, brought into the range of a 64-bit `long`; a
number beyond a bound of `long` becomes that bound. -/
def strtol (negative : Bool) (ds : List Char) : Int :=
  if negative then
    if (decimal ds : Int) > 9223372036854775808 then -9223372036854775808
    else -(decimal ds : Int)
  else
    if (decimal ds : Int) > 9223372036854775807 then 9223372036854775807
    else (decimal ds : Int)

/-- The store of a `long` into the 32-bit `int len`: the low 32 bits, read in
two's complement. -/
def toInt (v : Int) : Int :=
  (v + 2147483648) % 4294967296 - 2147483648

/-- The literal `,` of the format `"%d,"`: a comma is consumed when it is the
next character, anything else stays unread. -/
def skipComma : List Char → List Char
  | [] => []
  | c :: cs => if c = ',' then cs else c :: cs

/-- The call `fscanf(fp, "%d,", &len)` of line 31 (its return value is not
looked at): the new value of `len` and the unread rest of the file.  The
number read is stored in the 32-bit `int len` as `toInt` of its conversion by
`strtol`.  When no number can be read `len` keeps the value it had. -/
def scanLen (len : Int) (s : List Char) : Int × List Char :=
  match skipSpace s with
  | [] => (len, [])
  | c :: cs =>
    if c = '-' then
      match cs with
      | [] => (len, [])
      | d :: ds =>
        if isdigit d then
          (toInt (strtol true (scanDigits (d :: ds)).1), skipComma (scanDigits (d :: ds)).2)
        else (len, d :: ds)
    else if c = '+' then
      match cs with
      | [] => (len, [])
      | d :: ds =>
        if isdigit d then
          (toInt (strtol false (scanDigits (d :: ds)).1), skipComma (scanDigits (d :: ds)).2)
        else (len, d :: ds)
    else if isdigit c then
      (toInt (strtol false (scanDigits (c :: cs)).1), skipComma (scanDigits (c :: cs)).2)
    else (len, c :: cs)

/-- The loop `while(fscanf(fp, "%c", &ins) == 1)` of lines 24 to 69.  Every
iteration reads at least the character `ins`, so `fuel` iterations are enough
for a file of at most `fuel` characters.  `len` is the current value of the
variable `len`. -/
def mainLoop : Nat → Int → List Char → State → State
  | 0, _, _, s => s
  | _ + 1, _, [], s => s
  | fuel + 1, len, ins :: rest, s =>
    if ins = '\n' then mainLoop fuel len rest (reset s)
    else
      mainLoop fuel (scanLen len rest).1 (scanLen len rest).2
        (instruction ins (scanLen len rest).1 s)

/-! ## The reducer (lines 70 to 82) -/

/-- The loop of lines 74 to 81 with the current value of `final_dist`. -/
def reduce : List point → Int → Int
  | [], final_dist => final_dist
  | p :: rest, final_dist =>
    if p.isInt = 3 then
      if final_dist > (p.x.natAbs : Int) + (p.y.natAbs : Int)
          ∧ (p.x.natAbs : Int) + (p.y.natAbs : Int) ≠ 0 then
        reduce rest ((p.x.natAbs : Int) + (p.y.natAbs : Int))
      else reduce rest final_dist
    else reduce rest final_dist

/-- Lines 70 to 82: the number printed after `FINAL DISTANCE`. -/
def finalDistance (points : List point) : Int :=
  reduce points 999

/-- The cell collection when the read loop has ended, for the file `text`;
`len0` is the indeterminate initial value of the variable `len`. -/
def trace (len0 : Int) (text : List Char) : State :=
  mainLoop text.length len0 text init

/-- The program: the final distance printed for the file `text`. -/
def main (len0 : Int) (text : List Char) : Int :=
  finalDistance (trace len0 text).points

/-! ## The events of the read loop -/

/-- What one iteration of the read loop has read: a newline, or a character
`ins` followed by the value of `len` after the call of line 31. -/
inductive Event where
  | newline : Event
  | token (ins : Char) (len : Int) : Event
deriving DecidableEq, Repr

/-- The body of the read loop (lines 25 to 68) once its input has been read. -/
def exec (s : State) : Event → State
  | Event.newline => reset s
  | Event.token ins len => instruction ins len s

/-- The read loop on a sequence of events. -/
def run (evs : List Event) (s : State) : State :=
  evs.foldl exec s

/-- The events that `mainLoop` reads from a file: the same recursion as
`mainLoop`, with the trace left out. -/
def tokens : Nat → Int → List Char → List Event
  | 0, _, _ => []
  | _ + 1, _, [] => []
  | fuel + 1, len, ins :: rest =>
    if ins = '\n' then Event.newline :: tokens fuel len rest
    else
      Event.token ins (scanLen len rest).1 ::
        tokens fuel (scanLen len rest).1 (scanLen len rest).2

/-- The events of one wire given as a list of (direction, length) pairs. -/
def wireEvents (w : List (Char × Int)) : List Event :=
  w.map (fun i => Event.token i.1 i.2)

/-! ## Ghost definitions: the cells a wire lands on -/

/-- The coordinates handed to the upsert by `n` iterations of the step loop
started at `(x, y)`, in order. -/
def landings (ins : Char) : Nat → Int → Int → List (Int × Int)
  | 0, _, _ => []
  | n + 1, x, y =>
    move ins x y :: landings ins n (move ins x y).1 (move ins x y).2

/-- The position after `n` iterations of the step loop started at `(x, y)`. -/
def endpoint (ins : Char) : Nat → Int → Int → Int × Int
  | 0, x, y => (x, y)
  | n + 1, x, y => endpoint ins n (move ins x y).1 (move ins x y).2

/-- The coordinates a wire lands on, step by step and in order, when it starts
at `(x, y)`. -/
def pathFrom : List (Char × Int) → Int → Int → List (Int × Int)
  | [], _, _ => []
  | i :: rest, x, y =>
    landings i.1 i.2.toNat x y ++
      pathFrom rest (endpoint i.1 i.2.toNat x y).1 (endpoint i.1 i.2.toNat x y).2

/-- The coordinates a wire lands on: every wire starts at the origin. -/
def path (w : List (Char × Int)) : List (Int × Int) :=
  pathFrom w 0 0

/-- The upserts of a list of coordinates, in order, all with the same wire
index. -/
def upserts (wire : Int) (points : List point) (cs : List (Int × Int)) : List point :=
  cs.foldl (fun pts c => upsert pts c.1 c.2 wire) points

/-- The effect of the scan on one cell: `wire` is added to the marker of a
cell at `(x, y)`, any other cell is left alone. -/
def bump (x y wire : Int) (p : point) : point :=
  if p.x = x ∧ p.y = y then { p with isInt := p.isInt + wire } else p

/-- The coordinates of the cells of the collection, in order. -/
def coords (points : List point) : List (Int × Int) :=
  points.map (fun p => (p.x, p.y))

/-- The Manhattan distance `abs(x) + abs(y)` of line 76. -/
def dist (x y : Int) : Int :=
  (x.natAbs : Int) + (y.natAbs : Int)

/-- The marker stored for the coordinate `(x, y)`, if the collection has a cell
there (the first one, should there be several). -/
def marker (points : List point) (x y : Int) : Option Int :=
  match points with
  | [] => none
  | p :: rest => if p.x = x ∧ p.y = y then some p.isInt else marker rest x y

/-- No two entries of the collection have the same coordinates. -/
def NoDupXY (points : List point) : Prop :=
  (coords points).Nodup

instance (points : List point) : Decidable (NoDupXY points) := by
  unfold NoDupXY; infer_instance

/-- The coordinates of a list that are nearer to the origin than `m`. -/
def near (m : Int) (cs : List (Int × Int)) : List (Int × Int) :=
  cs.filter (fun d => decide (dist d.1 d.2 < m))

/-- The events of a two-line file: the first wire, a newline, the second wire,
and possibly a newline that ends the second line. -/
def TwoWires (evs : List Event) (w1 w2 : List (Char × Int)) : Prop :=
  evs = wireEvents w1 ++ Event.newline :: wireEvents w2
    ∨ evs = (wireEvents w1 ++ Event.newline :: wireEvents w2) ++ [Event.newline]

/-- The coordinates handed to the upsert while a sequence of events is run
from the position `(x, y)`, in order: those of every instruction, each wire
starting again at the origin. -/
def visited : List Event → Int → Int → List (Int × Int)
  | [], _, _ => []
  | Event.newline :: rest, _, _ => visited rest 0 0
  | Event.token ins len :: rest, x, y =>
    landings ins len.toNat x y ++
      visited rest (endpoint ins len.toNat x y).1 (endpoint ins len.toNat x y).2

/-- A coordinate is put at the end of a list of coordinates unless the list has
it already. -/
def insertNew (acc : List (Int × Int)) (c : Int × Int) : List (Int × Int) :=
  if c ∈ acc then acc else acc ++ [c]

/-- The distances of the cells, the origin apart, that both wires land on. -/
def crossingDists (w1 w2 : List (Char × Int)) : Set Int :=
  {d | ∃ c : Int × Int, c ≠ (0, 0) ∧ c ∈ path w1 ∧ c ∈ path w2 ∧ d = dist c.1 c.2}

/-- A wire lands at most once on every cell other than the origin. -/
def OncePerCell (w : List (Char × Int)) : Prop :=
  ∀ c ∈ path w, c ≠ (0, 0) → (path w).count c ≤ 1

instance (w : List (Char × Int)) : Decidable (OncePerCell w) := by
  unfold OncePerCell; infer_instance

/-- The distinct coordinates of a list in the order of their first occurrence:
the first one, then the distinct ones of the rest other than it. -/
def firstOcc : List (Int × Int) → List (Int × Int)
  | [] => []
  | c :: cs => c :: (firstOcc cs).filter (fun d => decide (d ≠ c))

/-! ## The input format of the specification -/

/-- The specification's token: a direction letter followed by the digits of
its length; its text is the letter followed by the digits. -/
def renderToken (t : Char × List Char) : List Char :=
  t.1 :: t.2

/-- The specification's line: the texts of its tokens, separated by commas. -/
def renderLine : List (Char × List Char) → List Char
  | [] => []
  | [t] => renderToken t
  | t :: t2 :: rest => renderToken t ++ ',' :: renderLine (t2 :: rest)

/-- The specification's file: its lines, separated by newlines. -/
def renderText : List (List (Char × List Char)) → List Char
  | [] => []
  | [l] => renderLine l
  | l :: l2 :: rest => renderLine l ++ '\n' :: renderText (l2 :: rest)

/-- A well-formed token: one letter among R, L, U, D followed by a positive
decimal integer. -/
def WellFormedToken (t : Char × List Char) : Prop :=
  (t.1 = 'R' ∨ t.1 = 'L' ∨ t.1 = 'U' ∨ t.1 = 'D') ∧ t.2 ≠ []
    ∧ (∀ c ∈ t.2, isdigit c = true) ∧ 0 < decimal t.2

instance (t : Char × List Char) : Decidable (WellFormedToken t) := by
  unfold WellFormedToken; infer_instance

/-- The length of a token is in the range of the 32-bit `int len`. -/
def FitsInt (t : Char × List Char) : Prop :=
  decimal t.2 ≤ 2147483647

instance (t : Char × List Char) : Decidable (FitsInt t) := by
  unfold FitsInt; infer_instance

/-- The instructions of a line, in order. -/
def lineEvents (l : List (Char × List Char)) : List Event :=
  l.map (fun t => Event.token t.1 (decimal t.2))

/-- The events of a file: the instructions of each line in order, with one
newline event between two lines. -/
def textEvents : List (List (Char × List Char)) → List Event
  | [] => []
  | [l] => lineEvents l
  | l :: l2 :: rest => lineEvents l ++ Event.newline :: textEvents (l2 :: rest)

/-- The token of an instruction: its letter and the decimal numeral of its
length. -/
def tokenOf (i : Char × Int) : Char × List Char :=
  (i.1, Nat.toDigits 10 i.2.toNat)

/-- A well-formed instruction: a direction among R, L, U, D and a positive
length. -/
def WellFormedInstr (i : Char × Int) : Prop :=
  (i.1 = 'R' ∨ i.1 = 'L' ∨ i.1 = 'U' ∨ i.1 = 'D') ∧ 0 < i.2

instance (i : Char × Int) : Decidable (WellFormedInstr i) := by
  unfold WellFormedInstr; infer_instance

/-- The events of the wires of a file: the instructions of each wire in order,
with one newline event between two wires. -/
def wiresEvents : List (List (Char × Int)) → List Event
  | [] => []
  | [w] => wireEvents w
  | w :: w2 :: rest => wireEvents w ++ Event.newline :: wiresEvents (w2 :: rest)

/-! ## Input files used below -/

/-- The first example of the specification, without a newline at its end. -/
def example1 : List Char := "R8,U5,L5,D3\nU7,R6,D4,L4".toList

/-- The two wires of the first example. -/
def example1a : List (Char × Int) := [('R', 8), ('U', 5), ('L', 5), ('D', 3)]

def example1b : List (Char × Int) := [('U', 7), ('R', 6), ('D', 4), ('L', 4)]

/-- The second example of the specification, without a newline at its end. -/
def example2 : List Char :=
  "R75,D30,R83,U83,L12,D49,R71,U7,L72\nU62,R66,U55,R34,D71,R55,D58,R83".toList

/-- The two wires of the second example. -/
def example2a : List (Char × Int) :=
  [('R', 75), ('D', 30), ('R', 83), ('U', 83), ('L', 12), ('D', 49), ('R', 71), ('U', 7),
    ('L', 72)]

def example2b : List (Char × Int) :=
  [('U', 62), ('R', 66), ('U', 55), ('R', 34), ('D', 71), ('R', 55), ('D', 58), ('R', 83)]

/-- A file whose first wire lands twice on the cell `(1, 0)`, which the second
wire lands on as well. -/
def fileTwice : List Char := "R1,L1,R1\nR1\n".toList

/-- A file whose first wire lands three times on the cell `(1, 0)`, which the
second wire never reaches. -/
def fileThrice : List Char := "R1,L1,R1,L1,R1\nU1\n".toList

/-- A file whose second wire comes back to the origin once. -/
def fileReturn : List Char := "R1\nU1,D1\n".toList

/-- A file whose first length, 4294967298, is beyond the range of `int`. -/
def fileBig : List Char := "R4294967298\nR1\n".toList

/-- The lines of `fileBig`: two lines of one token, and the empty line after
the last newline. -/
def linesBig : List (List (Char × List Char)) :=
  [[('R', "4294967298".toList)], [('R', ['1'])], []]

/-- A file whose two wires cross at `(1000, 1)` only. -/
def fileFar : List Char := "R1000,U1\nU1,R1000\n".toList

/-- The two wires of `fileFar`. -/
def farA : List (Char × Int) := [('R', 1000), ('U', 1)]

def farB : List (Char × Int) := [('U', 1), ('R', 1000)]

/-- The specification's unit vector of a direction: `u(R) = (1,0)`,
`u(L) = (-1,0)`, `u(U) = (0,1)`, `u(D) = (0,-1)`. -/
def specUnit (d : Char) : Int × Int :=
  if d = 'R' then (1, 0)
  else if d = 'L' then (-1, 0)
  else if d = 'U' then (0, 1)
  else if d = 'D' then (0, -1)
  else (0, 0)

/-- The specification's list of the cells of a segment: `p + k * u(d)` for
`k = 1, ..., L`, in that order. -/
def specSegment (d : Char) (L : Nat) (x y : Int) : List (Int × Int) :=
  (List.range' 1 L).map
    (fun (k : Nat) => (x + (k : Int) * (specUnit d).1, y + (k : Int) * (specUnit d).2))

/-! ## The scan and the upsert -/

theorem scan_fst (x y wire : Int) (pts : List point) (isDupe : Int) :
    (scan x y wire pts isDupe).1 = pts.map (bump x y wire) := by
  induction pts generalizing isDupe with
  | nil => rfl
  | cons p rest ih =>
    by_cases h : p.x = x ∧ p.y = y
    · simp [scan, bump, h, ih]
    · simp [scan, bump, h, ih]

theorem scan_snd_of_not_mem (x y wire : Int) (pts : List point) (isDupe : Int)
    (h : ∀ p ∈ pts, ¬(p.x = x ∧ p.y = y)) :
    (scan x y wire pts isDupe).2 = isDupe := by
  induction pts generalizing isDupe with
  | nil => rfl
  | cons p rest ih =>
    have hp : ¬(p.x = x ∧ p.y = y) := h p (List.mem_cons_self _ _)
    have hr : ∀ q ∈ rest, ¬(q.x = x ∧ q.y = y) :=
      fun q hq => h q (List.mem_cons_of_mem _ hq)
    simp [scan, hp, ih _ hr]

theorem scan_snd_of_mem (x y wire : Int) (pts : List point) (isDupe : Int)
    (h : ∃ p ∈ pts, p.x = x ∧ p.y = y) :
    (scan x y wire pts isDupe).2 = 1 := by
  induction pts generalizing isDupe with
  | nil => obtain ⟨p, hp, _⟩ := h; cases hp
  | cons p rest ih =>
    by_cases hp : p.x = x ∧ p.y = y
    · by_cases hr : ∃ q ∈ rest, q.x = x ∧ q.y = y
      · simp [scan, hp, ih _ hr]
      · have hr2 : ∀ q ∈ rest, ¬(q.x = x ∧ q.y = y) := by
          intro q hq hc; exact hr ⟨q, hq, hc⟩
        simp [scan, hp, scan_snd_of_not_mem _ _ _ _ _ hr2]
    · have hr : ∃ q ∈ rest, q.x = x ∧ q.y = y := by
        obtain ⟨q, hq, hc⟩ := h
        rcases List.mem_cons.mp hq with rfl | hq2
        · exact absurd hc hp
        · exact ⟨q, hq2, hc⟩
      simp [scan, hp, ih _ hr]

theorem map_bump_of_not_mem (x y wire : Int) (pts : List point)
    (h : ∀ p ∈ pts, ¬(p.x = x ∧ p.y = y)) : pts.map (bump x y wire) = pts := by
  induction pts with
  | nil => rfl
  | cons p rest ih =>
    have hp : ¬(p.x = x ∧ p.y = y) := h p (List.mem_cons_self _ _)
    have hr : ∀ q ∈ rest, ¬(q.x = x ∧ q.y = y) :=
      fun q hq => h q (List.mem_cons_of_mem _ hq)
    simp [bump, hp, ih hr]

theorem upsert_of_not_mem (x y wire : Int) (pts : List point)
    (h : ∀ p ∈ pts, ¬(p.x = x ∧ p.y = y)) :
    upsert pts x y wire = pts ++ [{ x := x, y := y, isInt := wire }] := by
  unfold upsert
  rw [scan_snd_of_not_mem _ _ _ _ _ h, scan_fst, map_bump_of_not_mem _ _ _ _ h]
  simp

theorem upsert_of_mem (x y wire : Int) (pts : List point)
    (h : ∃ p ∈ pts, p.x = x ∧ p.y = y) :
    upsert pts x y wire = pts.map (bump x y wire) := by
  unfold upsert
  rw [scan_snd_of_mem _ _ _ _ _ h, scan_fst]
  simp

theorem coords_map_bump (x y wire : Int) (pts : List point) :
    coords (pts.map (bump x y wire)) = coords pts := by
  induction pts with
  | nil => rfl
  | cons p rest ih =>
    simp only [coords, List.map_cons] at ih ⊢
    rw [ih]
    by_cases hp : p.x = x ∧ p.y = y <;> simp [bump, hp]

theorem mem_coords_iff (pts : List point) (x y : Int) :
    (x, y) ∈ coords pts ↔ ∃ p ∈ pts, p.x = x ∧ p.y = y := by
  simp [coords]

theorem noDupXY_upsert (x y wire : Int) (pts : List point) (h : NoDupXY pts) :
    NoDupXY (upsert pts x y wire) := by
  by_cases hm : ∃ p ∈ pts, p.x = x ∧ p.y = y
  · rw [upsert_of_mem _ _ _ _ hm]
    unfold NoDupXY
    rw [coords_map_bump]
    exact h
  · have hn : ∀ p ∈ pts, ¬(p.x = x ∧ p.y = y) := by
      intro p hp hc; exact hm ⟨p, hp, hc⟩
    rw [upsert_of_not_mem _ _ _ _ hn]
    unfold NoDupXY at h ⊢
    have hc : coords (pts ++ [{ x := x, y := y, isInt := wire }]) = coords pts ++ [(x, y)] := by
      simp [coords]
    rw [hc]
    refine List.Nodup.append h (List.nodup_singleton _) ?_
    intro c hc1 hc2
    rw [List.mem_singleton] at hc2
    subst hc2
    exact hm ((mem_coords_iff _ _ _).mp hc1)

/-! ## The marker stored for a coordinate -/

theorem marker_map_bump (x y wire : Int) (pts : List point) (a b : Int) :
    marker (pts.map (bump x y wire)) a b =
      if a = x ∧ b = y then (marker pts a b).map (fun m => m + wire) else marker pts a b := by
  induction pts with
  | nil => simp [marker]
  | cons p rest ih =>
    by_cases hp : p.x = x ∧ p.y = y
    · obtain ⟨hx, hy⟩ := hp
      by_cases hab : a = x ∧ b = y
      · obtain ⟨ha, hb⟩ := hab
        subst ha hb
        simp [marker, bump, hx, hy]
      · have h2 : ¬(x = a ∧ y = b) := fun h => hab ⟨h.1.symm, h.2.symm⟩
        simp only [List.map_cons, marker, bump, hx, hy, and_self, if_true, h2, if_false, hab] at ih ⊢
        exact ih
    · by_cases hab : a = x ∧ b = y
      · obtain ⟨ha, hb⟩ := hab
        subst ha hb
        simp only [List.map_cons, marker, bump, hp, if_false, and_self, if_true] at ih ⊢
        exact ih
      · by_cases hpa : p.x = a ∧ p.y = b
        · simp [marker, bump, hp, hpa, hab]
        · simp only [List.map_cons, marker, bump, hp, if_false, hpa, hab] at ih ⊢
          exact ih

theorem marker_append_singleton (pts : List point) (q : point) (a b : Int) :
    marker (pts ++ [q]) a b =
      match marker pts a b with
      | some m => some m
      | none => if q.x = a ∧ q.y = b then some q.isInt else none := by
  induction pts with
  | nil => simp [marker]
  | cons p rest ih =>
    by_cases hpa : p.x = a ∧ p.y = b
    · simp [marker, hpa]
    · simp only [List.cons_append, marker, hpa, if_false]
      exact ih

theorem marker_eq_none_iff (pts : List point) (a b : Int) :
    marker pts a b = none ↔ ∀ p ∈ pts, ¬(p.x = a ∧ p.y = b) := by
  induction pts with
  | nil => simp [marker]
  | cons p rest ih =>
    by_cases hpa : p.x = a ∧ p.y = b
    · constructor
      · intro h
        simp [marker, hpa] at h
      · intro h
        exact absurd hpa (h p (List.mem_cons_self _ _))
    · simp only [marker, hpa, if_false, List.mem_cons, forall_eq_or_imp, not_false_eq_true,
        true_and]
      exact ih

theorem marker_eq_some_mem (pts : List point) (a b m : Int)
    (h : marker pts a b = some m) : ∃ p ∈ pts, p.x = a ∧ p.y = b ∧ p.isInt = m := by
  induction pts with
  | nil => simp [marker] at h
  | cons p rest ih =>
    by_cases hpa : p.x = a ∧ p.y = b
    · simp only [marker, hpa, and_self, if_true, Option.some.injEq] at h
      exact ⟨p, List.mem_cons_self _ _, hpa.1, hpa.2, h⟩
    · simp only [marker, hpa, if_false] at h
      obtain ⟨q, hq, hc⟩ := ih h
      exact ⟨q, List.mem_cons_of_mem _ hq, hc⟩

theorem marker_of_mem (pts : List point) (h : NoDupXY pts) (p : point) (hp : p ∈ pts) :
    marker pts p.x p.y = some p.isInt := by
  induction pts with
  | nil => cases hp
  | cons q rest ih =>
    unfold NoDupXY coords at h
    rw [List.map_cons, List.nodup_cons] at h
    rcases List.mem_cons.mp hp with rfl | hp2
    · simp [marker]
    · have hne : ¬(q.x = p.x ∧ q.y = p.y) := by
        intro hc
        apply h.1
        rw [List.mem_map]
        exact ⟨p, hp2, by rw [hc.1, hc.2]⟩
      simp only [marker, hne, if_false]
      exact ih h.2 hp2

/-- The marker found at a coordinate after one upsert, with 0 standing for an
absent cell: the upsert adds `wire` at its own coordinate and nothing
elsewhere. -/
theorem marker_upsert (pts : List point) (x y wire a b : Int) :
    (marker (upsert pts x y wire) a b).getD 0 =
      (marker pts a b).getD 0 + (if a = x ∧ b = y then wire else 0) := by
  by_cases hm : ∃ p ∈ pts, p.x = x ∧ p.y = y
  · rw [upsert_of_mem _ _ _ _ hm, marker_map_bump]
    by_cases hab : a = x ∧ b = y
    · obtain ⟨ha, hb⟩ := hab
      subst ha hb
      have hne : marker pts a b ≠ none := by
        rw [Ne, marker_eq_none_iff]
        intro hall
        obtain ⟨p, hp, hc⟩ := hm
        exact hall p hp hc
      cases hmk : marker pts a b with
      | none => exact absurd hmk hne
      | some m => simp
    · simp [hab]
  · have hn : ∀ p ∈ pts, ¬(p.x = x ∧ p.y = y) := by
      intro p hp hc; exact hm ⟨p, hp, hc⟩
    rw [upsert_of_not_mem _ _ _ _ hn, marker_append_singleton]
    by_cases hab : a = x ∧ b = y
    · obtain ⟨ha, hb⟩ := hab
      subst ha hb
      have hnone : marker pts a b = none := (marker_eq_none_iff _ _ _).mpr hn
      simp [hnone]
    · have h2 : ¬(x = a ∧ y = b) := fun h => hab ⟨h.1.symm, h.2.symm⟩
      cases hmk : marker pts a b with
      | none => simp [hab, h2]
      | some m => simp [hab]

theorem marker_upserts (wire : Int) (cs : List (Int × Int)) (pts : List point) (a b : Int) :
    (marker (upserts wire pts cs) a b).getD 0 =
      (marker pts a b).getD 0 + wire * (cs.count (a, b) : Int) := by
  induction cs generalizing pts with
  | nil => simp [upserts]
  | cons c rest ih =>
    have hstep : upserts wire pts (c :: rest) = upserts wire (upsert pts c.1 c.2 wire) rest := rfl
    rw [hstep, ih, marker_upsert, List.count_cons]
    by_cases hab : a = c.1 ∧ b = c.2
    · have hc : c = (a, b) := by
        obtain ⟨h1, h2⟩ := hab
        exact Prod.ext h1.symm h2.symm
      subst hc
      simp
      ring
    · have hc : ¬(c = (a, b)) := by
        intro h
        subst h
        exact hab ⟨rfl, rfl⟩
      simp [hab, hc]

theorem noDupXY_upserts (wire : Int) (cs : List (Int × Int)) (pts : List point)
    (h : NoDupXY pts) : NoDupXY (upserts wire pts cs) := by
  induction cs generalizing pts with
  | nil => exact h
  | cons c rest ih => exact ih _ (noDupXY_upsert _ _ _ _ h)

/-! ## The step loop, the events and the read loop -/

theorem steps_eq (ins : Char) (n : Nat) (s : State) :
    steps ins n s =
      { points := upserts s.wire s.points (landings ins n s.x s.y)
        wire := s.wire
        x := (endpoint ins n s.x s.y).1
        y := (endpoint ins n s.x s.y).2 } := by
  induction n generalizing s with
  | zero => rfl
  | succ n ih =>
    show steps ins n (step ins s) = _
    rw [ih]
    rfl

theorem upserts_append (wire : Int) (pts : List point) (cs ds : List (Int × Int)) :
    upserts wire pts (cs ++ ds) = upserts wire (upserts wire pts cs) ds := by
  simp [upserts, List.foldl_append]

theorem run_wireEvents (w : List (Char × Int)) (s : State) :
    (run (wireEvents w) s).points = upserts s.wire s.points (pathFrom w s.x s.y)
      ∧ (run (wireEvents w) s).wire = s.wire := by
  induction w generalizing s with
  | nil => exact ⟨rfl, rfl⟩
  | cons i rest ih =>
    have hrun : run (wireEvents (i :: rest)) s
        = run (wireEvents rest) (instruction i.1 i.2 s) := rfl
    rw [hrun]
    obtain ⟨h1, h2⟩ := ih (instruction i.1 i.2 s)
    rw [h1, h2]
    unfold instruction
    rw [steps_eq]
    simp only [pathFrom, upserts_append]
    exact ⟨trivial, trivial⟩

theorem run_append (evs evs2 : List Event) (s : State) :
    run (evs ++ evs2) s = run evs2 (run evs s) := by
  simp [run, List.foldl_append]

/-- The collection after two wires: the upserts of the first wire's path with
index 1, then those of the second wire's path with index 2. -/
theorem run_two_wires (w1 w2 : List (Char × Int)) :
    (run (wireEvents w1 ++ Event.newline :: wireEvents w2) init).points =
      upserts 2 (upserts 1 init.points (path w1)) (path w2) := by
  rw [run_append]
  have hcons : run (Event.newline :: wireEvents w2) (run (wireEvents w1) init)
      = run (wireEvents w2) (reset (run (wireEvents w1) init)) := rfl
  rw [hcons]
  obtain ⟨h1, h2⟩ := run_wireEvents w1 init
  obtain ⟨h3, _⟩ := run_wireEvents w2 (reset (run (wireEvents w1) init))
  rw [h3]
  show upserts ((run (wireEvents w1) init).wire + 1) (run (wireEvents w1) init).points
      (pathFrom w2 0 0) = _
  rw [h1, h2]
  rfl

/-- A newline after the last instruction changes nothing in the collection. -/
theorem run_trailing_newline (evs : List Event) (s : State) :
    (run (evs ++ [Event.newline]) s).points = (run evs s).points := by
  rw [run_append]
  rfl

theorem skipSpace_length (s : List Char) : (skipSpace s).length ≤ s.length := by
  induction s with
  | nil => exact le_refl _
  | cons c cs ih =>
    unfold skipSpace
    split_ifs
    · exact le_trans ih (Nat.le_succ _)
    · exact le_refl _

theorem scanDigits_length (s : List Char) :
    (scanDigits s).2.length ≤ s.length := by
  induction s with
  | nil => exact le_refl _
  | cons c cs ih =>
    unfold scanDigits
    split_ifs
    · exact le_trans ih (Nat.le_succ _)
    · exact le_refl _

theorem skipComma_length (s : List Char) : (skipComma s).length ≤ s.length := by
  cases s with
  | nil => exact le_refl _
  | cons c cs =>
    by_cases h : c = ','
    · simp only [skipComma, h, if_true, List.length_cons]
      exact Nat.le_succ _
    · simp only [skipComma, h, if_false]
      exact le_refl _

/-- The call of line 31 never gives characters back. -/
theorem scanLen_length (len : Int) (s : List Char) :
    (scanLen len s).2.length ≤ s.length := by
  have hs := skipSpace_length s
  have hdig : ∀ t : List Char, (skipComma (scanDigits t).2).length ≤ t.length :=
    fun t => le_trans (skipComma_length _) (scanDigits_length t)
  unfold scanLen
  split
  · exact Nat.zero_le _
  · rename_i c cs hsk
    rw [hsk] at hs
    simp only [List.length_cons] at hs
    split
    · split
      · exact Nat.zero_le _
      · rename_i d ds
        have hd := hdig (d :: ds)
        simp only [List.length_cons] at hs hd
        split
        · show (skipComma (scanDigits (d :: ds)).2).length ≤ s.length
          omega
        · show (d :: ds).length ≤ s.length
          simp only [List.length_cons]
          omega
    · split
      · split
        · exact Nat.zero_le _
        · rename_i d ds
          have hd := hdig (d :: ds)
          simp only [List.length_cons] at hs hd
          split
          · show (skipComma (scanDigits (d :: ds)).2).length ≤ s.length
            omega
          · show (d :: ds).length ≤ s.length
            simp only [List.length_cons]
            omega
      · have hd := hdig (c :: cs)
        simp only [List.length_cons] at hd
        split
        · show (skipComma (scanDigits (c :: cs)).2).length ≤ s.length
          omega
        · show (c :: cs).length ≤ s.length
          simp only [List.length_cons]
          omega

/-- The read loop ends because the file is exhausted, never because the fuel
is: any fuel that is at least the number of characters of the file gives the
same final state. -/
theorem mainLoop_fuel (fuel1 fuel2 : Nat) (len : Int) (text : List Char) (s : State)
    (h1 : text.length ≤ fuel1) (h2 : text.length ≤ fuel2) :
    mainLoop fuel1 len text s = mainLoop fuel2 len text s := by
  induction fuel1 generalizing fuel2 len text s with
  | zero =>
    have ht : text = [] := List.length_eq_zero.mp (Nat.le_zero.mp h1)
    subst ht
    cases fuel2 <;> rfl
  | succ f1 ih =>
    cases text with
    | nil => cases fuel2 <;> rfl
    | cons ins rest =>
      cases fuel2 with
      | zero => simp at h2
      | succ f2 =>
        simp only [List.length_cons, Nat.succ_le_succ_iff] at h1 h2
        have hlen := scanLen_length len rest
        by_cases hn : ins = '\n'
        · simp only [mainLoop, hn, if_true]
          exact ih f2 len rest _ h1 h2
        · simp only [mainLoop, hn, if_false]
          exact ih f2 _ _ _ (le_trans hlen h1) (le_trans hlen h2)

/-- The read loop is the run of the events it reads. -/
theorem mainLoop_eq_run (fuel : Nat) (len : Int) (text : List Char) (s : State) :
    mainLoop fuel len text s = run (tokens fuel len text) s := by
  induction fuel generalizing len text s with
  | zero => rfl
  | succ fuel ih =>
    cases text with
    | nil => rfl
    | cons ins rest =>
      by_cases hn : ins = '\n'
      · simp only [mainLoop, tokens, hn, if_true]
        rw [ih]
        rfl
      · simp only [mainLoop, tokens, hn, if_false]
        rw [ih]
        rfl

theorem trace_eq_run (len0 : Int) (text : List Char) :
    trace len0 text = run (tokens text.length len0 text) init :=
  mainLoop_eq_run _ _ _ _

/-! ## The invariant: no two cells with the same coordinates -/

theorem noDupXY_init : NoDupXY init.points := by
  decide

theorem noDupXY_step (ins : Char) (s : State) (h : NoDupXY s.points) :
    NoDupXY (step ins s).points :=
  noDupXY_upsert _ _ _ _ h

theorem noDupXY_steps (ins : Char) (n : Nat) (s : State) (h : NoDupXY s.points) :
    NoDupXY (steps ins n s).points := by
  induction n generalizing s with
  | zero => exact h
  | succ n ih => exact ih _ (noDupXY_step ins s h)

theorem noDupXY_exec (e : Event) (s : State) (h : NoDupXY s.points) :
    NoDupXY (exec s e).points := by
  cases e with
  | newline => exact h
  | token ins len => exact noDupXY_steps ins _ s h

theorem noDupXY_run (evs : List Event) (s : State) (h : NoDupXY s.points) :
    NoDupXY (run evs s).points := by
  induction evs generalizing s with
  | nil => exact h
  | cons e rest ih => exact ih _ (noDupXY_exec e s h)

/-! ## The reducer -/

theorem reduce_ne_zero (pts : List point) (fd : Int) (h : fd ≠ 0) : reduce pts fd ≠ 0 := by
  induction pts generalizing fd with
  | nil => exact h
  | cons p rest ih =>
    unfold reduce
    split_ifs with h1 h2
    · exact ih _ h2.2
    · exact ih _ h
    · exact ih _ h

theorem reduce_le (pts : List point) (fd : Int) : reduce pts fd ≤ fd := by
  induction pts generalizing fd with
  | nil => exact le_refl _
  | cons p rest ih =>
    unfold reduce
    split_ifs with h1 h2
    · exact le_trans (ih _) (le_of_lt h2.1)
    · exact ih _
    · exact ih _

theorem reduce_mono (pts : List point) (a b : Int) (h : a ≤ b) :
    reduce pts a ≤ reduce pts b := by
  induction pts generalizing a b with
  | nil => exact h
  | cons p rest ih =>
    unfold reduce
    split_ifs with h1 h2 h3 h3
    · exact le_refl _
    · exact ih _ _ (by omega)
    · exact ih _ _ (by omega)
    · exact ih _ _ h
    · exact ih _ _ h

/-- The result is below the distance of every cell with marker 3 that is not
at distance 0. -/
theorem reduce_le_dist (pts : List point) (fd : Int) (p : point) (hp : p ∈ pts)
    (h3 : p.isInt = 3) (h0 : dist p.x p.y ≠ 0) : reduce pts fd ≤ dist p.x p.y := by
  induction pts generalizing fd with
  | nil => cases hp
  | cons q rest ih =>
    rcases List.mem_cons.mp hp with rfl | hp2
    · unfold dist at h0 ⊢
      unfold reduce
      split_ifs with h2
      · exact reduce_le _ _
      · exact le_trans (reduce_le _ _) (by omega)
    · unfold reduce
      split_ifs with h1 h2
      · exact ih _ hp2
      · exact ih _ hp2
      · exact ih _ hp2

/-- The result is above every bound `m` that is below the start value and below
the distance of every cell with marker 3 that is not at distance 0. -/
theorem le_reduce (pts : List point) (fd m : Int) (hm : m ≤ fd)
    (h : ∀ p ∈ pts, p.isInt = 3 → dist p.x p.y = 0 ∨ m ≤ dist p.x p.y) :
    m ≤ reduce pts fd := by
  induction pts generalizing fd with
  | nil => exact hm
  | cons q rest ih =>
    have hr : ∀ p ∈ rest, p.isInt = 3 → dist p.x p.y = 0 ∨ m ≤ dist p.x p.y :=
      fun p hp => h p (List.mem_cons_of_mem _ hp)
    unfold reduce
    split_ifs with h1 h2
    · refine ih _ ?_ hr
      have := h q (List.mem_cons_self _ _) h1
      unfold dist at this
      omega
    · exact ih _ hm hr
    · exact ih _ hm hr

/-- The result is `m` when some cell with marker 3 is at distance `m`, with
`0 < m ≤ 999`, and no cell with marker 3 is nearer, the distance 0 apart. -/
theorem finalDistance_eq (pts : List point) (m : Int) (p : point) (hp : p ∈ pts)
    (h3 : p.isInt = 3) (hd : dist p.x p.y = m) (h0 : m ≠ 0) (h999 : m ≤ 999)
    (h : ∀ q ∈ pts, q.isInt = 3 → dist q.x q.y = 0 ∨ m ≤ dist q.x q.y) :
    finalDistance pts = m := by
  apply le_antisymm
  · rw [← hd]
    exact reduce_le_dist pts 999 p hp h3 (by rw [hd]; exact h0)
  · exact le_reduce pts 999 m h999 h

/-- The result is 999 when every cell with marker 3 is at distance 0 or at
distance 999 or more. -/
theorem finalDistance_eq_999 (pts : List point)
    (h : ∀ q ∈ pts, q.isInt = 3 → dist q.x q.y = 0 ∨ 999 ≤ dist q.x q.y) :
    finalDistance pts = 999 :=
  le_antisymm (reduce_le pts 999) (le_reduce pts 999 999 (le_refl _) h)

/-! ## Two wires -/

theorem points_two_wires (evs : List Event) (w1 w2 : List (Char × Int))
    (h : TwoWires evs w1 w2) :
    (run evs init).points = upserts 2 (upserts 1 init.points (path w1)) (path w2) := by
  rcases h with h | h
  · rw [h, run_two_wires]
  · rw [h, run_trailing_newline, run_two_wires]

theorem marker_init (a b : Int) :
    (marker init.points a b).getD 0 = if a = 0 ∧ b = 0 then 1 else 0 := by
  by_cases h : a = 0 ∧ b = 0
  · obtain ⟨ha, hb⟩ := h
    subst ha hb
    rfl
  · have h2 : ¬((0 : Int) = a ∧ (0 : Int) = b) := fun hc => h ⟨hc.1.symm, hc.2.symm⟩
    simp [init, marker, h, h2]

/-- The marker found at a coordinate after two wires, with 0 standing for an
absent cell. -/
theorem marker_two_wires (w1 w2 : List (Char × Int)) (a b : Int) :
    (marker (upserts 2 (upserts 1 init.points (path w1)) (path w2)) a b).getD 0 =
      (if a = 0 ∧ b = 0 then 1 else 0) + ((path w1).count (a, b) : Int)
        + 2 * ((path w2).count (a, b) : Int) := by
  rw [marker_upserts, marker_upserts, marker_init]
  ring

theorem noDupXY_two_wires (w1 w2 : List (Char × Int)) :
    NoDupXY (upserts 2 (upserts 1 init.points (path w1)) (path w2)) :=
  noDupXY_upserts _ _ _ (noDupXY_upserts _ _ _ noDupXY_init)

/-- The marker of a cell of the collection after two wires. -/
theorem isInt_two_wires (w1 w2 : List (Char × Int)) (p : point)
    (hp : p ∈ upserts 2 (upserts 1 init.points (path w1)) (path w2)) :
    p.isInt = (if p.x = 0 ∧ p.y = 0 then 1 else 0) + ((path w1).count (p.x, p.y) : Int)
        + 2 * ((path w2).count (p.x, p.y) : Int) := by
  have h := marker_two_wires w1 w2 p.x p.y
  rw [marker_of_mem _ (noDupXY_two_wires w1 w2) p hp] at h
  simpa using h

/-- A coordinate that is not the origin and that each wire lands on exactly
once is a cell with marker 3. -/
theorem mem_two_wires_of_count (w1 w2 : List (Char × Int)) (a b : Int)
    (h0 : ¬(a = 0 ∧ b = 0)) (h1 : (path w1).count (a, b) = 1)
    (h2 : (path w2).count (a, b) = 1) :
    ∃ p ∈ upserts 2 (upserts 1 init.points (path w1)) (path w2),
      p.x = a ∧ p.y = b ∧ p.isInt = 3 := by
  have h := marker_two_wires w1 w2 a b
  rw [h1, h2] at h
  simp only [h0, if_false] at h
  cases hm : marker (upserts 2 (upserts 1 init.points (path w1)) (path w2)) a b with
  | none => rw [hm] at h; simp at h
  | some m =>
    rw [hm] at h
    have hm3 : m = 3 := by simpa using h
    subst hm3
    exact marker_eq_some_mem _ _ _ _ hm

theorem count_near (m : Int) (d : Int × Int) (cs : List (Int × Int))
    (h : dist d.1 d.2 < m) : (near m cs).count d = cs.count d := by
  unfold near
  exact List.count_filter (by simpa using h)

/-- The final distance of two wires from a check of the cells of the first
wire that are nearer than `m`. -/
theorem finalDistance_two_wires (w1 w2 : List (Char × Int)) (m a b : Int)
    (h0 : ¬(a = 0 ∧ b = 0)) (h1 : (path w1).count (a, b) = 1)
    (h2 : (path w2).count (a, b) = 1) (hd : dist a b = m) (h999 : m ≤ 999)
    (hall : ∀ d ∈ near m (path w1), dist d.1 d.2 ≠ 0 →
      (near m (path w1)).count d + 2 * (near m (path w2)).count d ≠ 3) :
    finalDistance (upserts 2 (upserts 1 init.points (path w1)) (path w2)) = m := by
  obtain ⟨p, hp, hx, hy, h3⟩ := mem_two_wires_of_count w1 w2 a b h0 h1 h2
  have hm0 : m ≠ 0 := by
    rw [← hd]
    unfold dist
    omega
  refine finalDistance_eq _ m p hp h3 (by rw [hx, hy]; exact hd) hm0 h999 ?_
  intro q hq hq3
  by_cases hq0 : dist q.x q.y = 0
  · exact Or.inl hq0
  · right
    by_contra hlt
    have hI := isInt_two_wires w1 w2 q hq
    have horigin : ¬(q.x = 0 ∧ q.y = 0) := by
      intro hc
      apply hq0
      rw [hc.1, hc.2]
      rfl
    simp only [horigin, if_false] at hI
    rw [hq3] at hI
    have hmem : (q.x, q.y) ∈ path w1 := by
      by_contra hn
      rw [List.count_eq_zero_of_not_mem hn] at hI
      omega
    have hlt2 : dist q.x q.y < m := by omega
    have hnear : (q.x, q.y) ∈ near m (path w1) := by
      unfold near
      rw [List.mem_filter]
      exact ⟨hmem, by simpa using hlt2⟩
    have hcount := hall (q.x, q.y) hnear hq0
    rw [count_near m (q.x, q.y) _ hlt2, count_near m (q.x, q.y) _ hlt2] at hcount
    omega

theorem main_of_tokens (len0 : Int) (text : List Char) (evs : List Event)
    (h : tokens text.length len0 text = evs) :
    main len0 text = finalDistance (run evs init).points := by
  unfold main
  rw [trace_eq_run, h]

/-! ## The cells of a straight segment -/

theorem move_eq_specUnit (d : Char) (hd : d = 'R' ∨ d = 'L' ∨ d = 'U' ∨ d = 'D')
    (x y : Int) : move d x y = (x + (specUnit d).1, y + (specUnit d).2) := by
  rcases hd with h | h | h | h <;> subst h <;> simp [move, specUnit] <;> rfl

theorem specSegment_succ (d : Char) (n : Nat) (x y : Int) :
    specSegment d (n + 1) x y =
      (x + (specUnit d).1, y + (specUnit d).2) ::
        specSegment d n (x + (specUnit d).1) (y + (specUnit d).2) := by
  unfold specSegment
  rw [List.range'_succ, List.map_cons]
  have h2 : List.range' (1 + 1) n = (List.range' 1 n).map (fun k => 1 + k) := by
    rw [List.map_add_range']
  rw [h2, List.map_map]
  congr 1
  · simp
  · apply List.map_congr_left
    intro k _
    simp only [Function.comp]
    push_cast
    refine Prod.ext ?_ ?_ <;> simp <;> ring

theorem landings_eq_specSegment (d : Char) (hd : d = 'R' ∨ d = 'L' ∨ d = 'U' ∨ d = 'D')
    (n : Nat) (x y : Int) : landings d n x y = specSegment d n x y := by
  induction n generalizing x y with
  | zero => rfl
  | succ n ih =>
    rw [specSegment_succ]
    simp only [landings, move_eq_specUnit d hd, ih]

theorem endpoint_eq (d : Char) (hd : d = 'R' ∨ d = 'L' ∨ d = 'U' ∨ d = 'D')
    (n : Nat) (x y : Int) :
    endpoint d n x y = (x + (n : Int) * (specUnit d).1, y + (n : Int) * (specUnit d).2) := by
  induction n generalizing x y with
  | zero => simp [endpoint]
  | succ n ih =>
    simp only [endpoint, move_eq_specUnit d hd, ih]
    push_cast
    refine Prod.ext ?_ ?_ <;> simp <;> ring

/-! ## The two examples of the specification -/

theorem tokens_example1 (len0 : Int) :
    tokens example1.length len0 example1
      = wireEvents example1a ++ Event.newline :: wireEvents example1b :=
  rfl

theorem tokens_example1_newline (len0 : Int) :
    tokens (example1 ++ ['\n']).length len0 (example1 ++ ['\n'])
      = (wireEvents example1a ++ Event.newline :: wireEvents example1b) ++ [Event.newline] :=
  rfl

theorem tokens_example2 (len0 : Int) :
    tokens example2.length len0 example2
      = wireEvents example2a ++ Event.newline :: wireEvents example2b :=
  rfl

theorem tokens_example2_newline (len0 : Int) :
    tokens (example2 ++ ['\n']).length len0 (example2 ++ ['\n'])
      = (wireEvents example2a ++ Event.newline :: wireEvents example2b) ++ [Event.newline] :=
  rfl

theorem finalDistance_example1 :
    finalDistance (upserts 2 (upserts 1 init.points (path example1a)) (path example1b)) = 6 := by
  decide!

theorem finalDistance_example2 :
    finalDistance (upserts 2 (upserts 1 init.points (path example2a)) (path example2b)) = 159 :=
  finalDistance_two_wires example2a example2b 159 155 4 (by decide) (by decide!) (by decide!)
    (by decide!) (by decide) (by decide!)

/-- C2: for the file whose lines are `R8,U5,L5,D3` and `U7,R6,D4,L4`, with or
without a newline after the second line, the program prints the final distance
6, whatever the initial content of `len`. -/
theorem C2_first_example (len0 : Int) :
    main len0 example1 = 6 ∧ main len0 (example1 ++ ['\n']) = 6 := by
  constructor
  · rw [main_of_tokens len0 _ _ (tokens_example1 len0),
      points_two_wires _ example1a example1b (Or.inl rfl)]
    exact finalDistance_example1
  · rw [main_of_tokens len0 _ _ (tokens_example1_newline len0),
      points_two_wires _ example1a example1b (Or.inr rfl)]
    exact finalDistance_example1

/-- C3: for the file whose lines are `R75,D30,R83,U83,L12,D49,R71,U7,L72` and
`U62,R66,U55,R34,D71,R55,D58,R83`, with or without a newline after the second
line, the program prints the final distance 159; in this file the first wire
crosses its own path: it lands twice on the cell `(158, 4)`. -/
theorem C3_second_example (len0 : Int) :
    main len0 example2 = 159 ∧ main len0 (example2 ++ ['\n']) = 159
      ∧ (path example2a).count (158, 4) = 2 := by
  refine ⟨?_, ?_, by decide!⟩
  · rw [main_of_tokens len0 _ _ (tokens_example2 len0),
      points_two_wires _ example2a example2b (Or.inl rfl)]
    exact finalDistance_example2
  · rw [main_of_tokens len0 _ _ (tokens_example2_newline len0),
      points_two_wires _ example2a example2b (Or.inr rfl)]
    exact finalDistance_example2

/-! ## Small files -/

theorem trace_of_tokens (len0 : Int) (text : List Char) (evs : List Event)
    (h : tokens text.length len0 text = evs) : trace len0 text = run evs init := by
  rw [trace_eq_run, h]

theorem tokens_fileTwice (len0 : Int) :
    tokens fileTwice.length len0 fileTwice
      = (wireEvents [('R', 1), ('L', 1), ('R', 1)] ++ Event.newline :: wireEvents [('R', 1)])
        ++ [Event.newline] :=
  rfl

theorem tokens_fileThrice (len0 : Int) :
    tokens fileThrice.length len0 fileThrice
      = (wireEvents [('R', 1), ('L', 1), ('R', 1), ('L', 1), ('R', 1)]
          ++ Event.newline :: wireEvents [('U', 1)]) ++ [Event.newline] :=
  rfl

theorem tokens_fileReturn (len0 : Int) :
    tokens fileReturn.length len0 fileReturn
      = (wireEvents [('R', 1)] ++ Event.newline :: wireEvents [('U', 1), ('D', 1)])
        ++ [Event.newline] :=
  rfl

/-- C1 (the code departs from the claim): in the file `R1,L1,R1` / `R1` both
wires land on the cell `(1, 0)`, at distance 1 from the origin, so the nearest
crossing is at distance 1; the first wire lands on it twice, its marker ends at
`1 + 1 + 2 = 4`, and the program prints 999. -/
theorem C1_crossing_landed_on_twice_is_missed (len0 : Int) :
    TwoWires (tokens fileTwice.length len0 fileTwice)
        [('R', 1), ('L', 1), ('R', 1)] [('R', 1)]
      ∧ ((1 : Int), (0 : Int)) ∈ path [('R', 1), ('L', 1), ('R', 1)]
      ∧ ((1 : Int), (0 : Int)) ∈ path [('R', 1)]
      ∧ dist 1 0 = 1
      ∧ (trace len0 fileTwice).points
          = [{ x := 0, y := 0, isInt := 2 }, { x := 1, y := 0, isInt := 4 }]
      ∧ main len0 fileTwice = 999 := by
  refine ⟨Or.inr (tokens_fileTwice len0), by decide, by decide, by decide, ?_, ?_⟩
  · rw [trace_of_tokens len0 _ _ (tokens_fileTwice len0)]
    decide!
  · rw [main_of_tokens len0 _ _ (tokens_fileTwice len0)]
    decide!

/-- C4 (the code departs from the claim): in the file `R1,L1,R1,L1,R1` / `U1`
no cell at all is landed on by both wires, yet the program prints the distance
1 of the cell `(1, 0)`, whose marker is 3 after three visits of the first
wire. -/
theorem C4_three_visits_of_one_wire_are_reported (len0 : Int) :
    TwoWires (tokens fileThrice.length len0 fileThrice)
        [('R', 1), ('L', 1), ('R', 1), ('L', 1), ('R', 1)] [('U', 1)]
      ∧ (∀ c ∈ path [('R', 1), ('L', 1), ('R', 1), ('L', 1), ('R', 1)],
          c ∉ path [('U', 1)])
      ∧ (trace len0 fileThrice).points
          = [{ x := 0, y := 0, isInt := 3 }, { x := 1, y := 0, isInt := 3 },
              { x := 0, y := 1, isInt := 2 }]
      ∧ main len0 fileThrice = 1 := by
  refine ⟨Or.inr (tokens_fileThrice len0), by decide, ?_, ?_⟩
  · rw [trace_of_tokens len0 _ _ (tokens_fileThrice len0)]
    decide!
  · rw [main_of_tokens len0 _ _ (tokens_fileThrice len0)]
    decide!

/-- C5: the final distance is never 0, for every cell collection and so for
every file; in the file `R1` / `U1,D1` the second wire comes back to the
origin, the marker of the origin becomes 3, and the program prints 999. -/
theorem C5_origin_never_reported :
    (∀ pts : List point, finalDistance pts ≠ 0)
      ∧ (∀ (len0 : Int) (text : List Char), main len0 text ≠ 0)
      ∧ (∀ len0 : Int,
          (trace len0 fileReturn).points
              = [{ x := 0, y := 0, isInt := 3 }, { x := 1, y := 0, isInt := 1 },
                  { x := 0, y := 1, isInt := 2 }]
            ∧ main len0 fileReturn = 999) := by
  refine ⟨fun pts => reduce_ne_zero pts 999 (by decide),
    fun len0 text => reduce_ne_zero _ 999 (by decide), fun len0 => ⟨?_, ?_⟩⟩
  · rw [trace_of_tokens len0 _ _ (tokens_fileReturn len0)]
    decide!
  · rw [main_of_tokens len0 _ _ (tokens_fileReturn len0)]
    decide!

/-- C6: the collection never holds two cells with the same coordinates: this
is so at the start, every trace step and every newline keeps it so, and so it
is after any sequence of events and at the end of the read loop on any file. -/
theorem C6_no_duplicate_coordinates :
    NoDupXY init.points
      ∧ (∀ (ins : Char) (s : State), NoDupXY s.points → NoDupXY (step ins s).points)
      ∧ (∀ s : State, NoDupXY s.points → NoDupXY (reset s).points)
      ∧ (∀ (ins : Char) (len : Int) (s : State),
          NoDupXY s.points → NoDupXY (instruction ins len s).points)
      ∧ (∀ evs : List Event, NoDupXY (run evs init).points)
      ∧ (∀ (len0 : Int) (text : List Char), NoDupXY (trace len0 text).points) := by
  refine ⟨noDupXY_init, noDupXY_step, fun s h => h,
    fun ins len s h => noDupXY_steps ins _ s h, fun evs => noDupXY_run evs init noDupXY_init, ?_⟩
  intro len0 text
  rw [trace_eq_run]
  exact noDupXY_run _ init noDupXY_init

theorem C6_no_duplicate_coordinates_witness :
    NoDupXY init.points ∧ NoDupXY (step 'R' init).points
      ∧ NoDupXY (step 'L' (step 'R' init)).points :=
  ⟨by decide, C6_no_duplicate_coordinates.2.1 'R' init (by decide),
    C6_no_duplicate_coordinates.2.1 'L' (step 'R' init) (by decide)⟩

/-- C8: an instruction with direction `d` among R, L, U, D and length `L ≥ 0`
started at `p` hands to the upsert exactly the `L` coordinates `p + k * u(d)`,
`k = 1, ..., L`, in that order, and leaves the position at `p + L * u(d)`. -/
theorem C8_segment (d : Char) (hd : d = 'R' ∨ d = 'L' ∨ d = 'U' ∨ d = 'D') (L : Int)
    (hL : 0 ≤ L) (s : State) :
    landings d L.toNat s.x s.y = specSegment d L.toNat s.x s.y
      ∧ ((landings d L.toNat s.x s.y).length : Int) = L
      ∧ instruction d L s =
          { points := upserts s.wire s.points (specSegment d L.toNat s.x s.y)
            wire := s.wire
            x := s.x + L * (specUnit d).1
            y := s.y + L * (specUnit d).2 } := by
  have hcast : (L.toNat : Int) = L := Int.toNat_of_nonneg hL
  refine ⟨landings_eq_specSegment d hd _ _ _, ?_, ?_⟩
  · rw [landings_eq_specSegment d hd]
    simp [specSegment, hcast]
  · unfold instruction
    rw [steps_eq, landings_eq_specSegment d hd, endpoint_eq d hd, hcast]

theorem C8_segment_witness :
    landings 'U' 2 0 0 = [(0, 1), (0, 2)]
      ∧ instruction 'U' 2 init =
          { points := [{ x := 0, y := 0, isInt := 1 }, { x := 0, y := 1, isInt := 1 },
              { x := 0, y := 2, isInt := 1 }]
            wire := 1, x := 0, y := 2 } :=
  ⟨(C8_segment 'U' (Or.inr (Or.inr (Or.inl rfl))) 2 (by decide) init).1.trans (by decide),
    (C8_segment 'U' (Or.inr (Or.inr (Or.inl rfl))) 2 (by decide) init).2.2.trans (by decide)⟩

/-- In a collection without two cells at the same coordinates, the upsert of
the coordinate of a cell `p` changes this one cell and nothing else. -/
theorem upsert_split (pts : List point) (x y wire : Int) (p : point) (hp : p ∈ pts)
    (hxy : p.x = x ∧ p.y = y) (hnd : NoDupXY pts) :
    ∃ l1 l2 : List point, pts = l1 ++ p :: l2
      ∧ upsert pts x y wire
          = l1 ++ { x := p.x, y := p.y, isInt := p.isInt + wire } :: l2 := by
  obtain ⟨l1, l2, hsplit⟩ := List.append_of_mem hp
  refine ⟨l1, l2, hsplit, ?_⟩
  rw [upsert_of_mem x y wire pts ⟨p, hp, hxy⟩, hsplit, List.map_append, List.map_cons]
  rw [hsplit] at hnd
  unfold NoDupXY coords at hnd
  rw [List.map_append, List.map_cons, List.nodup_append, List.nodup_cons] at hnd
  obtain ⟨_, ⟨hp2, _⟩, hdisj⟩ := hnd
  have h1 : ∀ q ∈ l1, ¬(q.x = x ∧ q.y = y) := by
    intro q hq hc
    apply hdisj (List.mem_map.mpr ⟨q, hq, rfl⟩)
    rw [hc.1, hc.2, hxy.1, hxy.2]
    exact List.mem_cons_self _ _
  have h2 : ∀ q ∈ l2, ¬(q.x = x ∧ q.y = y) := by
    intro q hq hc
    apply hp2
    rw [hxy.1, hxy.2, ← hc.1, ← hc.2]
    exact List.mem_map.mpr ⟨q, hq, rfl⟩
  rw [map_bump_of_not_mem _ _ _ _ h1, map_bump_of_not_mem _ _ _ _ h2]
  simp [bump, hxy]

/-- C9: a trace step upserts the coordinate it lands on with the wire index.
When no cell of the collection has that coordinate, the upsert appends the
cell with marker `wire` at the end.  When some cell has it, the collection
keeps its length and its order, `wire` is added to the marker of every cell at
that coordinate, and every other cell is left as it was; in a collection
without two cells at the same coordinates this is one cell, the rest of the
collection before and after it being the same. -/
theorem C9_upsert_frame (pts : List point) (x y wire : Int) :
    ((∀ p ∈ pts, ¬(p.x = x ∧ p.y = y)) →
        upsert pts x y wire = pts ++ [{ x := x, y := y, isInt := wire }])
      ∧ ((∃ p ∈ pts, p.x = x ∧ p.y = y) →
        upsert pts x y wire
            = pts.map (fun p =>
                if p.x = x ∧ p.y = y then { x := p.x, y := p.y, isInt := p.isInt + wire }
                else p)
          ∧ (upsert pts x y wire).length = pts.length
          ∧ coords (upsert pts x y wire) = coords pts)
      ∧ (∀ p ∈ pts, p.x = x ∧ p.y = y → NoDupXY pts →
        ∃ l1 l2 : List point, pts = l1 ++ p :: l2
          ∧ upsert pts x y wire
              = l1 ++ { x := p.x, y := p.y, isInt := p.isInt + wire } :: l2)
      ∧ (∀ (ins : Char) (s : State),
          (step ins s).points
            = upsert s.points (move ins s.x s.y).1 (move ins s.x s.y).2 s.wire) := by
  refine ⟨upsert_of_not_mem x y wire pts, ?_,
    fun p hp hxy hnd => upsert_split pts x y wire p hp hxy hnd, fun ins s => rfl⟩
  intro h
  have hmap := upsert_of_mem x y wire pts h
  refine ⟨hmap, ?_, ?_⟩
  · rw [hmap, List.length_map]
  · rw [hmap, coords_map_bump]

theorem C9_upsert_frame_witness :
    upsert init.points 1 0 1 = init.points ++ [{ x := 1, y := 0, isInt := 1 }]
      ∧ upsert [{ x := 0, y := 0, isInt := 1 }, { x := 1, y := 0, isInt := 1 }] 0 0 2
          = [{ x := 0, y := 0, isInt := 3 }, { x := 1, y := 0, isInt := 1 }] :=
  ⟨(C9_upsert_frame init.points 1 0 1).1 (by decide),
    (((C9_upsert_frame [{ x := 0, y := 0, isInt := 1 }, { x := 1, y := 0, isInt := 1 }]
      0 0 2).2.1 ⟨{ x := 0, y := 0, isInt := 1 }, by decide, by decide⟩).1).trans (by decide)⟩

theorem mem_specSegment (d : Char) (n : Nat) (x y : Int) (c : Int × Int) :
    c ∈ specSegment d n x y ↔
      ∃ k : Nat, 1 ≤ k ∧ k ≤ n
        ∧ c = (x + (k : Int) * (specUnit d).1, y + (k : Int) * (specUnit d).2) := by
  unfold specSegment
  rw [List.mem_map]
  constructor
  · rintro ⟨k, hk, rfl⟩
    rw [List.mem_range'_1] at hk
    exact ⟨k, hk.1, by omega, rfl⟩
  · rintro ⟨k, h1, h2, rfl⟩
    exact ⟨k, List.mem_range'_1.mpr ⟨h1, by omega⟩, rfl⟩

theorem nodup_specSegment_R (n : Nat) (x y : Int) : (specSegment 'R' n x y).Nodup := by
  unfold specSegment
  refine List.Nodup.map ?_ (List.nodup_range' 1 n)
  intro j k hjk
  have h1 := congrArg Prod.fst hjk
  simp [specUnit] at h1
  exact h1

theorem tokens_fileFar (len0 : Int) :
    tokens fileFar.length len0 fileFar
      = (wireEvents farA ++ Event.newline :: wireEvents farB) ++ [Event.newline] :=
  rfl

theorem path_farA : path farA = specSegment 'R' 1000 0 0 ++ [(1000, 1)] := by
  decide!

theorem path_farB : path farB = (0, 1) :: specSegment 'R' 1000 0 1 := by
  decide!

theorem snd_of_mem_specSegment_R (n : Nat) (x y : Int) (c : Int × Int)
    (h : c ∈ specSegment 'R' n x y) : c.2 = y := by
  obtain ⟨k, _, _, rfl⟩ := (mem_specSegment 'R' n x y c).mp h
  simp [specUnit]

theorem count_le_one_of_nodup (l : List (Int × Int)) (h : l.Nodup) (c : Int × Int) :
    l.count c ≤ 1 := by
  induction l with
  | nil => simp
  | cons a t ih =>
    rw [List.nodup_cons] at h
    rw [List.count_cons]
    by_cases hac : a = c
    · subst hac
      rw [List.count_eq_zero_of_not_mem h.1]
      simp
    · have := ih h.2
      simp only [beq_iff_eq, hac, if_false]
      omega

theorem count_farA_le (c : Int × Int) : (path farA).count c ≤ 2 := by
  rw [path_farA, List.count_append]
  have h1 := count_le_one_of_nodup _ (nodup_specSegment_R 1000 0 0) c
  have h2 : List.count c [((1000 : Int), (1 : Int))] ≤ 1 := by
    rw [List.count_singleton]
    split_ifs <;> omega
  omega

/-- In `fileFar` the only cell with marker 3 away from the origin is the
crossing `(1000, 1)`. -/
theorem far_marker_three (p : point)
    (hp : p ∈ upserts 2 (upserts 1 init.points (path farA)) (path farB))
    (h3 : p.isInt = 3) (h0 : dist p.x p.y ≠ 0) : p.x = 1000 ∧ p.y = 1 := by
  have hI := isInt_two_wires farA farB p hp
  have horigin : ¬(p.x = 0 ∧ p.y = 0) := by
    intro hc
    apply h0
    rw [hc.1, hc.2]
    rfl
  simp only [horigin, if_false] at hI
  rw [h3] at hI
  have hle := count_farA_le (p.x, p.y)
  have hA : (p.x, p.y) ∈ path farA := by
    by_contra hn
    rw [List.count_eq_zero_of_not_mem hn] at hI
    omega
  have hB : (p.x, p.y) ∈ path farB := by
    by_contra hn
    rw [List.count_eq_zero_of_not_mem hn] at hI
    omega
  rw [path_farA, List.mem_append] at hA
  rw [path_farB, List.mem_cons] at hB
  have hy1 : p.y = 1 := by
    rcases hB with hB | hB
    · exact congrArg Prod.snd hB
    · exact snd_of_mem_specSegment_R _ _ _ _ hB
  rcases hA with hA | hA
  · have := snd_of_mem_specSegment_R _ _ _ _ hA
    simp only at this
    omega
  · rw [List.mem_singleton] at hA
    exact ⟨congrArg Prod.fst hA, hy1⟩

/-- C7 (the code departs from the claim): in the collection traced for the
file `R1000,U1` / `U1,R1000` there is a cell with marker 3 away from the
origin, every such cell is at distance 1001, so the minimum the claim speaks of
is 1001, and the reducer returns 999. -/
theorem C7_far_crossing_is_reported_as_999 (len0 : Int) :
    (∃ p ∈ (trace len0 fileFar).points, p.isInt = 3 ∧ dist p.x p.y ≠ 0)
      ∧ (∀ p ∈ (trace len0 fileFar).points,
          p.isInt = 3 → dist p.x p.y ≠ 0 → dist p.x p.y = 1001)
      ∧ finalDistance (trace len0 fileFar).points = 999 := by
  rw [trace_of_tokens len0 _ _ (tokens_fileFar len0),
    points_two_wires _ farA farB (Or.inr rfl)]
  have hall : ∀ p ∈ upserts 2 (upserts 1 init.points (path farA)) (path farB),
      p.isInt = 3 → dist p.x p.y ≠ 0 → dist p.x p.y = 1001 := by
    intro p hp h3 h0
    obtain ⟨hx, hy⟩ := far_marker_three p hp h3 h0
    rw [hx, hy]
    rfl
  refine ⟨?_, hall, ?_⟩
  · obtain ⟨p, hp, hx, hy, h3⟩ :=
      mem_two_wires_of_count farA farB 1000 1 (by decide) (by decide!) (by decide!)
    refine ⟨p, hp, h3, ?_⟩
    rw [hx, hy]
    decide
  · apply finalDistance_eq_999
    intro q hq h3
    by_cases h0 : dist q.x q.y = 0
    · exact Or.inl h0
    · right
      rw [hall q hq h3 h0]
      decide

/-! ## The newline branch -/

/-- C11: a newline sets the position to `(0, 0)`, adds exactly 1 to the wire
index and leaves the collection as it is, in the loop body and in the read
loop; before the first newline the wire index is 1, after it 2, and the
collection is the same before and after. -/
theorem C11_newline_resets :
    (∀ s : State,
        exec s Event.newline = { points := s.points, wire := s.wire + 1, x := 0, y := 0 })
      ∧ (∀ (fuel : Nat) (len : Int) (rest : List Char) (s : State),
          mainLoop (fuel + 1) len ('\n' :: rest) s
            = mainLoop fuel len rest
                { points := s.points, wire := s.wire + 1, x := 0, y := 0 })
      ∧ (∀ w : List (Char × Int),
          (run (wireEvents w) init).wire = 1
            ∧ (run (wireEvents w ++ [Event.newline]) init).wire = 2
            ∧ (run (wireEvents w ++ [Event.newline]) init).points
                = (run (wireEvents w) init).points
            ∧ (run (wireEvents w ++ [Event.newline]) init).x = 0
            ∧ (run (wireEvents w ++ [Event.newline]) init).y = 0) := by
  refine ⟨fun s => rfl, fun fuel len rest s => ?_, fun w => ?_⟩
  · simp only [mainLoop, if_true]
    rfl
  · have h1 : (run (wireEvents w) init).wire = 1 := (run_wireEvents w init).2
    have h2 : run (wireEvents w ++ [Event.newline]) init = reset (run (wireEvents w) init) := by
      rw [run_append]
      rfl
    rw [h2]
    refine ⟨h1, ?_, rfl, rfl, rfl⟩
    show (run (wireEvents w) init).wire + 1 = 2
    rw [h1]
    rfl

/-! ## The reducer as a minimum -/

theorem reduce_attained (pts : List point) (fd : Int) :
    reduce pts fd = fd
      ∨ ∃ p ∈ pts, p.isInt = 3 ∧ dist p.x p.y ≠ 0 ∧ reduce pts fd = dist p.x p.y := by
  induction pts generalizing fd with
  | nil => exact Or.inl rfl
  | cons p rest ih =>
    unfold reduce
    split_ifs with h1 h2
    · right
      rcases ih ((p.x.natAbs : Int) + (p.y.natAbs : Int)) with h | ⟨q, hq, hq3, hq0, hqd⟩
      · exact ⟨p, List.mem_cons_self _ _, h1, h2.2, h⟩
      · exact ⟨q, List.mem_cons_of_mem _ hq, hq3, hq0, hqd⟩
    · rcases ih fd with h | ⟨q, hq, hq3, hq0, hqd⟩
      · exact Or.inl h
      · exact Or.inr ⟨q, List.mem_cons_of_mem _ hq, hq3, hq0, hqd⟩
    · rcases ih fd with h | ⟨q, hq, hq3, hq0, hqd⟩
      · exact Or.inl h
      · exact Or.inr ⟨q, List.mem_cons_of_mem _ hq, hq3, hq0, hqd⟩

theorem one_le_finalDistance (pts : List point) : 1 ≤ finalDistance pts := by
  rcases reduce_attained pts 999 with h | ⟨p, _, _, h0, hd⟩
  · unfold finalDistance
    rw [h]
    decide
  · unfold finalDistance
    rw [hd]
    unfold dist at h0 ⊢
    omega

/-- The reducer returns the least element of the set made of 999 and of the
distances of the cells with marker 3 that are not at distance 0. -/
theorem finalDistance_isLeast (pts : List point) :
    IsLeast
        (insert (999 : Int)
          {d | ∃ p ∈ pts, p.isInt = 3 ∧ dist p.x p.y ≠ 0 ∧ d = dist p.x p.y})
        (finalDistance pts) := by
  refine ⟨?_, ?_⟩
  · rcases reduce_attained pts 999 with h | ⟨p, hp, h3, h0, hd⟩
    · exact Or.inl h
    · exact Or.inr ⟨p, hp, h3, h0, hd⟩
  · intro d hd
    rcases hd with rfl | ⟨p, hp, h3, h0, rfl⟩
    · exact reduce_le pts 999
    · exact reduce_le_dist pts 999 p hp h3 h0

/-- C14: the reducer returns the least element of the set made of 999 and of
the distances `|x| + |y|` of the cells with marker 3 that are not at distance
0; so the result lies between 1 and 999, and it is 999 when every such cell is
at distance 999 or more, as it is when there is no such cell. -/
theorem C14_reducer_is_capped_minimum (pts : List point) :
    IsLeast
        (insert (999 : Int)
          {d | ∃ p ∈ pts, p.isInt = 3 ∧ dist p.x p.y ≠ 0 ∧ d = dist p.x p.y})
        (finalDistance pts)
      ∧ 1 ≤ finalDistance pts ∧ finalDistance pts ≤ 999
      ∧ ((∀ p ∈ pts, p.isInt = 3 → dist p.x p.y ≠ 0 → 999 ≤ dist p.x p.y) →
          finalDistance pts = 999)
      ∧ ((∀ p ∈ pts, ¬(p.isInt = 3 ∧ dist p.x p.y ≠ 0)) → finalDistance pts = 999) := by
  refine ⟨finalDistance_isLeast pts, one_le_finalDistance pts, reduce_le pts 999, ?_, ?_⟩
  · intro h
    apply finalDistance_eq_999
    intro q hq h3
    by_cases h0 : dist q.x q.y = 0
    · exact Or.inl h0
    · exact Or.inr (h q hq h3 h0)
  · intro h
    apply finalDistance_eq_999
    intro q hq h3
    by_cases h0 : dist q.x q.y = 0
    · exact Or.inl h0
    · exact absurd ⟨h3, h0⟩ (h q hq)

theorem C14_reducer_is_capped_minimum_witness :
    finalDistance [{ x := 0, y := 0, isInt := 3 }, { x := 999, y := 1, isInt := 3 },
        { x := 2, y := 0, isInt := 4 }] = 999 :=
  (C14_reducer_is_capped_minimum [{ x := 0, y := 0, isInt := 3 },
      { x := 999, y := 1, isInt := 3 }, { x := 2, y := 0, isInt := 4 }]).2.2.2.1
    (by decide)

/-! ## The coordinates of the collection -/

theorem coords_upsert (pts : List point) (x y wire : Int) :
    coords (upsert pts x y wire) = insertNew (coords pts) (x, y) := by
  unfold insertNew
  by_cases hm : ∃ p ∈ pts, p.x = x ∧ p.y = y
  · rw [upsert_of_mem _ _ _ _ hm, coords_map_bump, if_pos ((mem_coords_iff _ _ _).mpr hm)]
  · have hn : ∀ p ∈ pts, ¬(p.x = x ∧ p.y = y) := by
      intro p hp hc; exact hm ⟨p, hp, hc⟩
    have hnc : (x, y) ∉ coords pts := fun h => hm ((mem_coords_iff _ _ _).mp h)
    rw [upsert_of_not_mem _ _ _ _ hn, if_neg hnc]
    simp [coords]

theorem dist_ne_zero_iff (x y : Int) : dist x y ≠ 0 ↔ ¬(x = 0 ∧ y = 0) := by
  unfold dist
  omega

theorem count_le_one_of_once (w : List (Char × Int)) (h : OncePerCell w) (c : Int × Int)
    (hc : c ≠ (0, 0)) : (path w).count c ≤ 1 := by
  by_cases hm : c ∈ path w
  · exact h c hm hc
  · rw [List.count_eq_zero_of_not_mem hm]
    exact Nat.zero_le _

/-- With wires that land at most once on a cell, the marker of a cell other
than the origin is 3 exactly when both wires land on it. -/
theorem isInt_three_iff (w1 w2 : List (Char × Int)) (h1 : OncePerCell w1)
    (h2 : OncePerCell w2) (p : point)
    (hp : p ∈ upserts 2 (upserts 1 init.points (path w1)) (path w2))
    (hno : ¬(p.x = 0 ∧ p.y = 0)) :
    p.isInt = 3 ↔ (p.x, p.y) ∈ path w1 ∧ (p.x, p.y) ∈ path w2 := by
  have hI := isInt_two_wires w1 w2 p hp
  simp only [hno, if_false] at hI
  have hc : (p.x, p.y) ≠ ((0 : Int), (0 : Int)) := by
    intro h
    exact hno ⟨congrArg Prod.fst h, congrArg Prod.snd h⟩
  have ha := count_le_one_of_once w1 h1 (p.x, p.y) hc
  have hb := count_le_one_of_once w2 h2 (p.x, p.y) hc
  rw [← List.count_pos_iff, ← List.count_pos_iff]
  omega

theorem crossing_is_marked (w1 w2 : List (Char × Int)) (h1 : OncePerCell w1)
    (h2 : OncePerCell w2) (c : Int × Int) (hc : c ≠ (0, 0)) (hc1 : c ∈ path w1)
    (hc2 : c ∈ path w2) :
    ∃ p ∈ upserts 2 (upserts 1 init.points (path w1)) (path w2),
      p.x = c.1 ∧ p.y = c.2 ∧ p.isInt = 3 := by
  obtain ⟨a, b⟩ := c
  have hno : ¬(a = 0 ∧ b = 0) := by
    intro h
    exact hc (Prod.ext h.1 h.2)
  have ha := count_le_one_of_once w1 h1 (a, b) hc
  have hb := count_le_one_of_once w2 h2 (a, b) hc
  have ha2 := List.count_pos_iff.mpr hc1
  have hb2 := List.count_pos_iff.mpr hc2
  exact mem_two_wires_of_count w1 w2 a b hno (by omega) (by omega)

/-- With wires that land at most once on a cell, the final distance is the
least element of the set made of 999 and of the distances of the crossings. -/
theorem finalDistance_isLeast_crossings (w1 w2 : List (Char × Int)) (h1 : OncePerCell w1)
    (h2 : OncePerCell w2) :
    IsLeast (insert (999 : Int) (crossingDists w1 w2))
      (finalDistance (upserts 2 (upserts 1 init.points (path w1)) (path w2))) := by
  have hset : insert (999 : Int) (crossingDists w1 w2)
      = insert (999 : Int)
          {d | ∃ p ∈ upserts 2 (upserts 1 init.points (path w1)) (path w2),
            p.isInt = 3 ∧ dist p.x p.y ≠ 0 ∧ d = dist p.x p.y} := by
    congr 1
    ext d
    constructor
    · rintro ⟨c, hc, hc1, hc2, rfl⟩
      obtain ⟨p, hp, hx, hy, h3⟩ := crossing_is_marked w1 w2 h1 h2 c hc hc1 hc2
      refine ⟨p, hp, h3, ?_, by rw [hx, hy]⟩
      rw [dist_ne_zero_iff, hx, hy]
      intro h
      exact hc (Prod.ext h.1 h.2)
    · rintro ⟨p, hp, h3, h0, rfl⟩
      have hno := (dist_ne_zero_iff _ _).mp h0
      obtain ⟨hc1, hc2⟩ := (isInt_three_iff w1 w2 h1 h2 p hp hno).mp h3
      refine ⟨(p.x, p.y), ?_, hc1, hc2, rfl⟩
      intro h
      exact hno ⟨congrArg Prod.fst h, congrArg Prod.snd h⟩
  rw [hset]
  exact finalDistance_isLeast _

theorem crossingDists_comm (w1 w2 : List (Char × Int)) :
    crossingDists w1 w2 = crossingDists w2 w1 := by
  ext d
  constructor
  · rintro ⟨c, hc, hc1, hc2, rfl⟩
    exact ⟨c, hc, hc2, hc1, rfl⟩
  · rintro ⟨c, hc, hc1, hc2, rfl⟩
    exact ⟨c, hc, hc2, hc1, rfl⟩

/-- C15: for a file of two wires each of which lands at most once on every
cell other than the origin, a cell of the collection other than the origin has
marker 3 exactly when both wires land on it, every cell both wires land on is
in the collection with marker 3, the final distance is the least element of
the set made of 999 and of the distances of the cells, the origin apart, that
both wires land on, and a file with the two wires exchanged gives the same
final distance. -/
theorem C15_single_visits (len0 : Int) (text : List Char) (w1 w2 : List (Char × Int))
    (hread : TwoWires (tokens text.length len0 text) w1 w2)
    (h1 : OncePerCell w1) (h2 : OncePerCell w2) :
    (∀ p ∈ (trace len0 text).points, ¬(p.x = 0 ∧ p.y = 0) →
        (p.isInt = 3 ↔ (p.x, p.y) ∈ path w1 ∧ (p.x, p.y) ∈ path w2))
      ∧ (∀ c : Int × Int, c ≠ (0, 0) → c ∈ path w1 → c ∈ path w2 →
          ∃ p ∈ (trace len0 text).points, p.x = c.1 ∧ p.y = c.2 ∧ p.isInt = 3)
      ∧ IsLeast (insert (999 : Int) (crossingDists w1 w2)) (main len0 text)
      ∧ (∀ (len1 : Int) (text1 : List Char),
          TwoWires (tokens text1.length len1 text1) w2 w1 →
            main len1 text1 = main len0 text) := by
  have hpts : (trace len0 text).points
      = upserts 2 (upserts 1 init.points (path w1)) (path w2) := by
    rw [trace_eq_run, points_two_wires _ w1 w2 hread]
  have hleast : IsLeast (insert (999 : Int) (crossingDists w1 w2)) (main len0 text) := by
    unfold main
    rw [hpts]
    exact finalDistance_isLeast_crossings w1 w2 h1 h2
  refine ⟨?_, ?_, hleast, ?_⟩
  · intro p hp hno
    rw [hpts] at hp
    exact isInt_three_iff w1 w2 h1 h2 p hp hno
  · intro c hc hc1 hc2
    rw [hpts]
    exact crossing_is_marked w1 w2 h1 h2 c hc hc1 hc2
  · intro len1 text1 hread1
    have hleast1 : IsLeast (insert (999 : Int) (crossingDists w1 w2)) (main len1 text1) := by
      rw [crossingDists_comm]
      unfold main
      rw [trace_eq_run, points_two_wires _ w2 w1 hread1]
      exact finalDistance_isLeast_crossings w2 w1 h2 h1
    exact hleast1.unique hleast

theorem C15_single_visits_witness :
    TwoWires (tokens example1.length 0 example1) example1a example1b
      ∧ OncePerCell example1a ∧ OncePerCell example1b
      ∧ IsLeast (insert (999 : Int) (crossingDists example1a example1b)) (main 0 example1) :=
  ⟨Or.inl (tokens_example1 0), by decide!, by decide!,
    (C15_single_visits 0 example1 example1a example1b (Or.inl (tokens_example1 0))
      (by decide!) (by decide!)).2.2.1⟩

/-! ## The coordinates of the collection in order of first visit -/

theorem coords_upserts (wire : Int) (cs : List (Int × Int)) (pts : List point) :
    coords (upserts wire pts cs) = cs.foldl insertNew (coords pts) := by
  induction cs generalizing pts with
  | nil => rfl
  | cons c rest ih =>
    show coords (upserts wire (upsert pts c.1 c.2 wire) rest) = _
    rw [ih, coords_upsert]
    rfl

theorem coords_run (evs : List Event) (s : State) :
    coords (run evs s).points = (visited evs s.x s.y).foldl insertNew (coords s.points) := by
  induction evs generalizing s with
  | nil => rfl
  | cons e rest ih =>
    cases e with
    | newline =>
      show coords (run rest (reset s)).points = _
      rw [ih]
      rfl
    | token ins len =>
      show coords (run rest (instruction ins len s)).points = _
      rw [ih]
      unfold instruction
      rw [steps_eq]
      simp only [visited, List.foldl_append, coords_upserts]

theorem mem_firstOcc (l : List (Int × Int)) (c : Int × Int) : c ∈ firstOcc l ↔ c ∈ l := by
  induction l with
  | nil => simp [firstOcc]
  | cons a t ih =>
    simp only [firstOcc, List.mem_cons, List.mem_filter, ih, decide_eq_true_eq]
    by_cases h : c = a
    · simp [h]
    · simp [h]

theorem nodup_firstOcc (l : List (Int × Int)) : (firstOcc l).Nodup := by
  induction l with
  | nil => exact List.nodup_nil
  | cons a t ih =>
    simp only [firstOcc, List.nodup_cons, List.mem_filter, decide_eq_true_eq]
    exact ⟨fun h => h.2 rfl, ih.filter _⟩

theorem nodup_insertNew (acc : List (Int × Int)) (c : Int × Int) (h : acc.Nodup) :
    (insertNew acc c).Nodup := by
  unfold insertNew
  split_ifs with hc
  · exact h
  · refine List.Nodup.append h (List.nodup_singleton _) ?_
    intro d hd1 hd2
    rw [List.mem_singleton] at hd2
    subst hd2
    exact hc hd1

/-- Inserting the coordinates of `cs` one by one at the end of a list without
repetition adds the distinct coordinates of `cs` that the list does not have,
in the order of their first occurrence. -/
theorem foldl_insertNew (cs acc : List (Int × Int)) (h : acc.Nodup) :
    cs.foldl insertNew acc = acc ++ (firstOcc cs).filter (fun d => decide (d ∉ acc)) := by
  induction cs generalizing acc with
  | nil => simp [firstOcc]
  | cons c rest ih =>
    rw [List.foldl_cons, ih _ (nodup_insertNew acc c h)]
    unfold insertNew
    by_cases hc : c ∈ acc
    · simp only [hc, if_true, firstOcc, List.filter_cons, not_true_eq_false, decide_False,
        Bool.false_eq_true, if_false, List.filter_filter]
      congr 1
      apply List.filter_congr
      intro d _
      by_cases hd : d ∈ acc
      · simp [hd]
      · have hne : d ≠ c := fun e => hd (e ▸ hc)
        simp [hd, hne]
    · simp only [hc, if_false, firstOcc, List.filter_cons, not_false_eq_true, decide_True,
        if_true, List.filter_filter, List.append_assoc, List.singleton_append]
      congr 2
      apply List.filter_congr
      intro d _
      by_cases hd : d ∈ acc
      · simp [hd]
      · by_cases hne : d = c
        · simp [hd, hne]
        · simp [hd, hne]

theorem coords_run_init (evs : List Event) :
    coords (run evs init).points
      = (0, 0) :: (firstOcc (visited evs 0 0)).filter (fun d => decide (d ≠ (0, 0))) := by
  rw [coords_run]
  have hnd : (coords init.points).Nodup := noDupXY_init
  rw [foldl_insertNew _ _ hnd]
  show [((0 : Int), (0 : Int))] ++ _ = _
  rw [List.singleton_append]
  congr 1
  apply List.filter_congr
  intro d _
  show decide (d ∉ [((0 : Int), (0 : Int))]) = decide (d ≠ (0, 0))
  simp

theorem length_firstOcc (l : List (Int × Int)) : (firstOcc l).length = l.toFinset.card := by
  rw [← List.toFinset_card_of_nodup (nodup_firstOcc l)]
  congr 1
  ext c
  simp [mem_firstOcc]

/-- C12: after any sequence of events, and so after any file, the coordinates
of the collection are the origin followed by the distinct coordinates the
steps landed on, the origin apart, in the order of their first visit; a
coordinate is in the collection exactly when it is the origin or a step landed
on it; and the size of the collection is the number of distinct coordinates
landed on, plus one when no step landed on the origin. -/
theorem C12_collection_is_first_visits :
    (∀ evs : List Event,
        coords (run evs init).points = firstOcc ((0, 0) :: visited evs 0 0)
          ∧ coords (run evs init).points
              = (0, 0) :: (firstOcc (visited evs 0 0)).filter (fun d => decide (d ≠ (0, 0)))
          ∧ (∀ c : Int × Int,
              c ∈ coords (run evs init).points ↔ c = (0, 0) ∨ c ∈ visited evs 0 0)
          ∧ (run evs init).points.length
              = (visited evs 0 0).toFinset.card
                + (if ((0 : Int), (0 : Int)) ∈ visited evs 0 0 then 0 else 1))
      ∧ (∀ (len0 : Int) (text : List Char),
          coords (trace len0 text).points
              = firstOcc ((0, 0) :: visited (tokens text.length len0 text) 0 0)
            ∧ (trace len0 text).points.length
                = (visited (tokens text.length len0 text) 0 0).toFinset.card
                  + (if ((0 : Int), (0 : Int)) ∈ visited (tokens text.length len0 text) 0 0
                      then 0 else 1)) := by
  have hlen : ∀ evs : List Event, (run evs init).points.length
      = (visited evs 0 0).toFinset.card
        + (if ((0 : Int), (0 : Int)) ∈ visited evs 0 0 then 0 else 1) := by
    intro evs
    have h1 : (run evs init).points.length = (coords (run evs init).points).length := by
      simp [coords]
    have h2 : coords (run evs init).points = firstOcc ((0, 0) :: visited evs 0 0) :=
      coords_run_init evs
    rw [h1, h2, length_firstOcc, List.toFinset_cons, Finset.card_insert_eq_ite]
    simp only [List.mem_toFinset]
    split_ifs <;> omega
  refine ⟨fun evs => ⟨coords_run_init evs, coords_run_init evs, ?_, hlen evs⟩, ?_⟩
  · intro c
    have h2 : coords (run evs init).points = firstOcc ((0, 0) :: visited evs 0 0) :=
      coords_run_init evs
    rw [h2, mem_firstOcc, List.mem_cons]
  · intro len0 text
    rw [trace_eq_run]
    exact ⟨coords_run_init _, hlen _⟩

/-! ## The read loop on a well-formed file -/

theorem isspace_of_isdigit (c : Char) (h : isdigit c = true) : isspace c = false := by
  unfold isdigit at h
  unfold isspace
  simp only [Bool.and_eq_true, decide_eq_true_eq] at h
  simp only [Bool.or_eq_false_iff, Bool.and_eq_false_imp, decide_eq_false_iff_not,
    decide_eq_true_eq]
  omega

theorem ne_of_isdigit (c d : Char) (h : isdigit c = true) (hd : isdigit d = false) :
    c ≠ d := by
  intro e
  rw [e, hd] at h
  cases h

theorem scanDigits_append (ds tail : List Char)
    (hd : ∀ c ∈ ds, isdigit c = true) (ht : ∀ c ∈ tail.head?, isdigit c = false) :
    scanDigits (ds ++ tail) = (ds, tail) := by
  induction ds with
  | nil =>
    cases tail with
    | nil => rfl
    | cons c cs =>
      have hc : isdigit c = false := ht c rfl
      simp [scanDigits, hc]
  | cons d ds ih =>
    have hdd : isdigit d = true := hd d (List.mem_cons_self _ _)
    have hrest : ∀ c ∈ ds, isdigit c = true := fun c hc => hd c (List.mem_cons_of_mem _ hc)
    have ih2 : scanDigits (ds ++ tail) = (ds, tail) := ih hrest
    show scanDigits (d :: (ds ++ tail)) = (d :: ds, tail)
    unfold scanDigits
    rw [if_pos hdd, ih2]

/-- A number up to 2147483647 is stored in `len` as it is. -/
theorem toInt_strtol_of_fits (ds : List Char) (h : decimal ds ≤ 2147483647) :
    toInt (strtol false ds) = (decimal ds : Int) := by
  have hcast : (decimal ds : Int) ≤ 2147483647 := by exact_mod_cast h
  have hlong : ¬((decimal ds : Int) > 9223372036854775807) := by omega
  unfold toInt strtol
  simp only [Bool.false_eq_true, if_false, hlong]
  omega

/-- The call of line 31 on the digits of a number followed by something that is
not a digit: `len` becomes the number as stored in an `int`, and a comma that
follows is consumed. -/
theorem scanLen_digits (len : Int) (ds tail : List Char) (hne : ds ≠ [])
    (hd : ∀ c ∈ ds, isdigit c = true) (ht : ∀ c ∈ tail.head?, isdigit c = false) :
    scanLen len (ds ++ tail) = (toInt (strtol false ds), skipComma tail) := by
  cases ds with
  | nil => exact absurd rfl hne
  | cons d rest =>
    have hdd : isdigit d = true := hd d (List.mem_cons_self _ _)
    have hsp : skipSpace (d :: (rest ++ tail)) = d :: (rest ++ tail) := by
      simp [skipSpace, isspace_of_isdigit d hdd]
    have h1 : d ≠ '-' := ne_of_isdigit d '-' hdd (by decide)
    have h2 : d ≠ '+' := ne_of_isdigit d '+' hdd (by decide)
    have hscan := scanDigits_append (d :: rest) tail hd ht
    unfold scanLen
    rw [List.cons_append, hsp]
    simp only [h1, h2, if_false, hdd, if_true]
    rw [← List.cons_append, hscan]

theorem tokens_nil (fuel : Nat) (len : Int) : tokens fuel len [] = [] := by
  cases fuel <;> rfl

theorem tokens_token (fuel : Nat) (len : Int) (t : Char × List Char) (tail : List Char)
    (hwf : WellFormedToken t) (hfit : FitsInt t)
    (ht : ∀ c ∈ tail.head?, isdigit c = false) :
    tokens (fuel + 1) len (t.1 :: (t.2 ++ tail))
      = Event.token t.1 (decimal t.2) :: tokens fuel (decimal t.2) (skipComma tail) := by
  obtain ⟨hdir, hne, hd, _⟩ := hwf
  have hn : t.1 ≠ '\n' := by
    rcases hdir with h | h | h | h <;> rw [h] <;> decide
  simp only [tokens, hn, if_false]
  rw [scanLen_digits len t.2 tail hne hd ht, toInt_strtol_of_fits t.2 hfit]

theorem tokens_renderLine (l : List (Char × List Char))
    (hwf : ∀ t ∈ l, WellFormedToken t ∧ FitsInt t) (tail : List Char) (evs : List Event)
    (htail : tail = [] ∨ ∃ next, tail = '\n' :: next)
    (hev : ∀ (len : Int) (fuel : Nat), tail.length ≤ fuel → tokens fuel len tail = evs) :
    ∀ (len : Int) (fuel : Nat), (renderLine l ++ tail).length ≤ fuel →
      tokens fuel len (renderLine l ++ tail) = lineEvents l ++ evs := by
  have hhead : ∀ c ∈ tail.head?, isdigit c = false := by
    intro c hc
    rcases htail with h | ⟨next, h⟩
    · rw [h] at hc
      cases hc
    · rw [h] at hc
      simp only [List.head?_cons, Option.mem_def, Option.some.injEq] at hc
      rw [← hc]
      decide
  have hskip : skipComma tail = tail := by
    rcases htail with h | ⟨next, h⟩
    · rw [h]
      rfl
    · rw [h]
      rfl
  induction l with
  | nil =>
    intro len fuel hf
    exact hev len fuel hf
  | cons t rest ih =>
    have hwt : WellFormedToken t := (hwf t (List.mem_cons_self _ _)).1
    have hft : FitsInt t := (hwf t (List.mem_cons_self _ _)).2
    have hwr : ∀ u ∈ rest, WellFormedToken u ∧ FitsInt u :=
      fun u hu => hwf u (List.mem_cons_of_mem _ hu)
    intro len fuel hf
    cases rest with
    | nil =>
      have htext : renderLine [t] ++ tail = t.1 :: (t.2 ++ tail) := rfl
      rw [htext] at hf ⊢
      cases fuel with
      | zero => simp at hf
      | succ f =>
        simp only [List.length_cons, List.length_append, Nat.succ_le_succ_iff] at hf
        rw [tokens_token f len t tail hwt hft hhead, hskip, hev _ f (by omega)]
        rfl
    | cons t2 rest2 =>
      have htext : renderLine (t :: t2 :: rest2) ++ tail
          = t.1 :: (t.2 ++ (',' :: (renderLine (t2 :: rest2) ++ tail))) := by
        simp [renderLine, renderToken]
      rw [htext] at hf ⊢
      cases fuel with
      | zero => simp at hf
      | succ f =>
        simp only [List.length_cons, List.length_append, Nat.succ_le_succ_iff] at hf
        have hcomma : ∀ c ∈ (',' :: (renderLine (t2 :: rest2) ++ tail)).head?,
            isdigit c = false := by
          intro c hc
          simp only [List.head?_cons, Option.mem_def, Option.some.injEq] at hc
          rw [← hc]
          decide
        rw [tokens_token f len t _ hwt hft hcomma]
        have hsk : skipComma (',' :: (renderLine (t2 :: rest2) ++ tail))
            = renderLine (t2 :: rest2) ++ tail := rfl
        rw [hsk, ih hwr _ f (by simp only [List.length_append]; omega)]
        rfl

theorem tokens_renderText (lines : List (List (Char × List Char)))
    (hwf : ∀ l ∈ lines, ∀ t ∈ l, WellFormedToken t ∧ FitsInt t) :
    ∀ (len : Int) (fuel : Nat), (renderText lines).length ≤ fuel →
      tokens fuel len (renderText lines) = textEvents lines := by
  induction lines with
  | nil =>
    intro len fuel _
    exact tokens_nil fuel len
  | cons l rest ih =>
    have hwl : ∀ t ∈ l, WellFormedToken t ∧ FitsInt t := hwf l (List.mem_cons_self _ _)
    have hwr : ∀ m ∈ rest, ∀ t ∈ m, WellFormedToken t ∧ FitsInt t :=
      fun m hm => hwf m (List.mem_cons_of_mem _ hm)
    intro len fuel hf
    cases rest with
    | nil =>
      have h := tokens_renderLine l hwl [] [] (Or.inl rfl)
        (fun len fuel _ => tokens_nil fuel len) len fuel
        (by rw [List.append_nil]; exact hf)
      rw [List.append_nil, List.append_nil] at h
      exact h
    | cons l2 rest2 =>
      have hev : ∀ (len : Int) (fuel : Nat),
          ('\n' :: renderText (l2 :: rest2)).length ≤ fuel →
            tokens fuel len ('\n' :: renderText (l2 :: rest2))
              = Event.newline :: textEvents (l2 :: rest2) := by
        intro len fuel hf2
        cases fuel with
        | zero => simp at hf2
        | succ f =>
          simp only [List.length_cons, Nat.succ_le_succ_iff] at hf2
          simp only [tokens, if_true]
          rw [ih hwr len f hf2]
      exact tokens_renderLine l hwl _ _ (Or.inr ⟨_, rfl⟩) hev len fuel hf

/-! ## Decimal numerals -/

theorem digitChar_spec : ∀ m : Nat, m < 10 →
    (Nat.digitChar m).toNat - 48 = m ∧ isdigit (Nat.digitChar m) = true := by
  decide

theorem foldl_toDigitsCore (fuel n : Nat) (ds : List Char) (h : n < fuel) :
    (Nat.toDigitsCore 10 fuel n ds).foldl (fun a c => 10 * a + (c.toNat - 48)) 0
      = ds.foldl (fun a c => 10 * a + (c.toNat - 48)) n := by
  induction fuel generalizing n ds with
  | zero => omega
  | succ fuel ih =>
    have hd := (digitChar_spec (n % 10) (Nat.mod_lt _ (by decide))).1
    unfold Nat.toDigitsCore
    by_cases h0 : n / 10 = 0
    · simp only [h0, if_true, List.foldl_cons, hd]
      congr 1
      omega
    · simp only [h0, if_false]
      rw [ih (n / 10) _ (by omega), List.foldl_cons, hd]
      congr 1
      omega

theorem isdigit_toDigitsCore (fuel n : Nat) (ds : List Char)
    (h : ∀ c ∈ ds, isdigit c = true) :
    ∀ c ∈ Nat.toDigitsCore 10 fuel n ds, isdigit c = true := by
  induction fuel generalizing n ds with
  | zero => exact h
  | succ fuel ih =>
    have hd := (digitChar_spec (n % 10) (Nat.mod_lt _ (by decide))).2
    have hcons : ∀ c ∈ Nat.digitChar (n % 10) :: ds, isdigit c = true := by
      intro c hc
      rcases List.mem_cons.mp hc with rfl | hc2
      · exact hd
      · exact h c hc2
    unfold Nat.toDigitsCore
    by_cases h0 : n / 10 = 0
    · simp only [h0, if_true]
      exact hcons
    · simp only [h0, if_false]
      exact ih _ _ hcons

theorem toDigitsCore_ne_nil (fuel n : Nat) (ds : List Char) (h : ds ≠ [] ∨ 0 < fuel) :
    Nat.toDigitsCore 10 fuel n ds ≠ [] := by
  induction fuel generalizing n ds with
  | zero =>
    rcases h with h | h
    · exact h
    · omega
  | succ fuel ih =>
    unfold Nat.toDigitsCore
    by_cases h0 : n / 10 = 0
    · simp only [h0, if_true]
      exact List.cons_ne_nil _ _
    · simp only [h0, if_false]
      exact ih _ _ (Or.inl (List.cons_ne_nil _ _))

/-- The decimal numeral of a number denotes this number. -/
theorem decimal_toDigits (n : Nat) : decimal (Nat.toDigits 10 n) = n := by
  unfold decimal Nat.toDigits
  rw [foldl_toDigitsCore (n + 1) n [] (Nat.lt_succ_self n)]
  rfl

theorem wellFormed_tokenOf (i : Char × Int) (h : WellFormedInstr i)
    (hfit : i.2 ≤ 2147483647) : WellFormedToken (tokenOf i) ∧ FitsInt (tokenOf i) := by
  obtain ⟨hdir, hpos⟩ := h
  refine ⟨⟨hdir, toDigitsCore_ne_nil _ _ _ (Or.inr (Nat.succ_pos _)),
    isdigit_toDigitsCore _ _ _ (fun c hc => by cases hc), ?_⟩, ?_⟩
  · show 0 < decimal (Nat.toDigits 10 i.2.toNat)
    rw [decimal_toDigits]
    omega
  · show decimal (Nat.toDigits 10 i.2.toNat) ≤ 2147483647
    rw [decimal_toDigits]
    omega

theorem lineEvents_tokenOf (w : List (Char × Int)) (h : ∀ i ∈ w, WellFormedInstr i) :
    lineEvents (w.map tokenOf) = wireEvents w := by
  unfold lineEvents wireEvents
  rw [List.map_map]
  apply List.map_congr_left
  intro i hi
  have hpos := (h i hi).2
  show Event.token i.1 ((decimal (Nat.toDigits 10 i.2.toNat) : Nat) : Int) = Event.token i.1 i.2
  rw [decimal_toDigits, Int.toNat_of_nonneg (le_of_lt hpos)]

theorem textEvents_tokenOf (wires : List (List (Char × Int)))
    (h : ∀ w ∈ wires, ∀ i ∈ w, WellFormedInstr i) :
    textEvents (wires.map (fun w => w.map tokenOf)) = wiresEvents wires := by
  induction wires with
  | nil => rfl
  | cons w rest ih =>
    have hw : ∀ i ∈ w, WellFormedInstr i := h w (List.mem_cons_self _ _)
    have hr : ∀ v ∈ rest, ∀ i ∈ v, WellFormedInstr i :=
      fun v hv => h v (List.mem_cons_of_mem _ hv)
    cases rest with
    | nil => exact lineEvents_tokenOf w hw
    | cons w2 rest2 =>
      have ih2 := ih hr
      simp only [List.map_cons, textEvents, wiresEvents] at ih2 ⊢
      rw [lineEvents_tokenOf w hw, ih2]

/-- C13 (amended): on the text of well-formed lines (tokens of one letter among
R, L, U, D and a positive decimal integer no larger than 2147483647, the
largest `int`, separated by commas, the lines separated by newlines) the read
loop reads exactly the instructions of the tokens, in order, with one newline
event for each newline at its place and no event for a comma, and it ends in
the state that the run of these events gives; so for wires of well-formed
instructions with lengths up to 2147483647 written with decimal numerals the
read loop reads back these instructions. -/
theorem C13_read_loop_on_well_formed_text :
    (∀ lines : List (List (Char × List Char)),
        (∀ l ∈ lines, ∀ t ∈ l, WellFormedToken t ∧ FitsInt t) → ∀ len0 : Int,
          tokens (renderText lines).length len0 (renderText lines) = textEvents lines
            ∧ trace len0 (renderText lines) = run (textEvents lines) init
            ∧ (∀ fuel : Nat, (renderText lines).length ≤ fuel →
                mainLoop fuel len0 (renderText lines) init = run (textEvents lines) init))
      ∧ (∀ wires : List (List (Char × Int)),
          (∀ w ∈ wires, ∀ i ∈ w, WellFormedInstr i ∧ i.2 ≤ 2147483647) → ∀ len0 : Int,
            (∀ l ∈ wires.map (fun w => w.map tokenOf), ∀ t ∈ l,
                WellFormedToken t ∧ FitsInt t)
              ∧ trace len0 (renderText (wires.map (fun w => w.map tokenOf)))
                  = run (wiresEvents wires) init) := by
  have hfirst : ∀ lines : List (List (Char × List Char)),
      (∀ l ∈ lines, ∀ t ∈ l, WellFormedToken t ∧ FitsInt t) → ∀ len0 : Int,
        tokens (renderText lines).length len0 (renderText lines) = textEvents lines
          ∧ trace len0 (renderText lines) = run (textEvents lines) init
          ∧ (∀ fuel : Nat, (renderText lines).length ≤ fuel →
              mainLoop fuel len0 (renderText lines) init = run (textEvents lines) init) := by
    intro lines hwf len0
    refine ⟨tokens_renderText lines hwf len0 _ (le_refl _), ?_, ?_⟩
    · rw [trace_eq_run, tokens_renderText lines hwf len0 _ (le_refl _)]
    · intro fuel hf
      rw [mainLoop_eq_run, tokens_renderText lines hwf len0 fuel hf]
  refine ⟨hfirst, ?_⟩
  intro wires hw len0
  have hwf : ∀ l ∈ wires.map (fun w => w.map tokenOf), ∀ t ∈ l,
      WellFormedToken t ∧ FitsInt t := by
    intro l hl t ht
    obtain ⟨w, hwm, rfl⟩ := List.mem_map.mp hl
    obtain ⟨i, him, rfl⟩ := List.mem_map.mp ht
    exact wellFormed_tokenOf i (hw w hwm i him).1 (hw w hwm i him).2
  refine ⟨hwf, ?_⟩
  rw [(hfirst _ hwf len0).2.1,
    textEvents_tokenOf wires (fun w hwm i him => (hw w hwm i him).1)]

theorem C13_read_loop_on_well_formed_text_witness :
    renderText [[('R', ['8']), ('U', ['1', '0'])], [('D', ['7'])], []]
        = "R8,U10\nD7\n".toList
      ∧ tokens 11 0 "R8,U10\nD7\n".toList
        = [Event.token 'R' 8, Event.token 'U' 10, Event.newline, Event.token 'D' 7,
            Event.newline]
      ∧ renderText ([example1a, example1b].map (fun w => w.map tokenOf)) = example1
      ∧ trace 0 (renderText ([example1a, example1b].map (fun w => w.map tokenOf)))
          = run (wireEvents example1a ++ Event.newline :: wireEvents example1b) init :=
  ⟨by decide,
    (C13_read_loop_on_well_formed_text.1
      [[('R', ['8']), ('U', ['1', '0'])], [('D', ['7'])], []] (by decide) 0).1,
    by decide,
    (C13_read_loop_on_well_formed_text.2 [example1a, example1b] (by decide) 0).2⟩

/-- C13 as it was stated fails: the file `R4294967298` / `R1` is the text of
well-formed lines, its first token is the letter R followed by the positive
decimal integer 4294967298, and the read loop runs the instruction with the
length 2, the value that the 32-bit `int len` holds, so the events read are
not the instructions of the tokens. -/
theorem C13_length_beyond_int_counterexample :
    (∀ l ∈ linesBig, ∀ t ∈ l, WellFormedToken t)
      ∧ renderText linesBig = fileBig
      ∧ textEvents linesBig
          = [Event.token 'R' 4294967298, Event.newline, Event.token 'R' 1, Event.newline]
      ∧ tokens fileBig.length 0 fileBig
          = [Event.token 'R' 2, Event.newline, Event.token 'R' 1, Event.newline]
      ∧ tokens (renderText linesBig).length 0 (renderText linesBig) ≠ textEvents linesBig
      ∧ trace 0 fileBig
          = { points := [{ x := 0, y := 0, isInt := 1 }, { x := 1, y := 0, isInt := 3 },
                { x := 2, y := 0, isInt := 1 }]
              wire := 3, x := 0, y := 0 } := by
  refine ⟨by decide, by decide, by decide, by decide, by decide, by decide⟩

end Day3
